import Mathlib

/-!
Shallow embedding of the `raytrust` ray tracer (urdh/raytrust).

Scalar model: `f32` values are modelled exactly, as an inductive type with a
quiet NaN, the two infinities, and finite values carried as rationals.  All
arithmetic on finite values is exact rational arithmetic (IEEE rounding and
signed zero are not modelled); the special values follow the IEEE rules used
by Rust `f32` (NaN propagation, `inf - inf = NaN`, `0 * inf = NaN`,
`0 / 0 = NaN`, comparisons with NaN are false, `sqrt` of a negative is NaN).
Square roots of finite values use `Rat.sqrt`, which is exact precisely on
perfect squares; theorems that depend on the value of a square root carry a
perfect-square hypothesis making the model square root exact.
-/

namespace Raytrust

/-- Model of a Rust `f32` value: NaN, the two infinities, or a finite value
carried exactly as a rational. -/
inductive F32 where
  | nan : F32
  | pinf : F32
  | ninf : F32
  | val : ℚ → F32
deriving DecidableEq, Repr

namespace F32

/-- Whether the value is NaN (`f32::is_nan`). -/
def isNan : F32 → Bool
  | nan => true
  | _ => false

/-- IEEE negation. -/
def fneg : F32 → F32
  | nan => nan
  | pinf => ninf
  | ninf => pinf
  | val q => val (-q)

/-- IEEE addition (exact on finite values). -/
def fadd : F32 → F32 → F32
  | nan, _ => nan
  | _, nan => nan
  | pinf, pinf => pinf
  | pinf, ninf => nan
  | ninf, pinf => nan
  | ninf, ninf => ninf
  | pinf, val _ => pinf
  | ninf, val _ => ninf
  | val _, pinf => pinf
  | val _, ninf => ninf
  | val a, val b => val (a + b)

/-- IEEE subtraction, as addition of the negation (exact for `f32`). -/
def fsub (a b : F32) : F32 := fadd a (fneg b)

/-- IEEE multiplication (exact on finite values); `0 * ∞ = NaN`. -/
def fmul : F32 → F32 → F32
  | nan, _ => nan
  | _, nan => nan
  | pinf, pinf => pinf
  | pinf, ninf => ninf
  | ninf, pinf => ninf
  | ninf, ninf => pinf
  | pinf, val q => if q = 0 then nan else if 0 < q then pinf else ninf
  | ninf, val q => if q = 0 then nan else if 0 < q then ninf else pinf
  | val q, pinf => if q = 0 then nan else if 0 < q then pinf else ninf
  | val q, ninf => if q = 0 then nan else if 0 < q then ninf else pinf
  | val a, val b => val (a * b)

/-- IEEE division (exact on finite values); `x / 0` is a signed infinity for
`x ≠ 0` and NaN for `x = 0` (signed zero is not modelled: the single zero
acts as `+0`). -/
def fdiv : F32 → F32 → F32
  | nan, _ => nan
  | _, nan => nan
  | pinf, pinf => nan
  | pinf, ninf => nan
  | ninf, pinf => nan
  | ninf, ninf => nan
  | pinf, val q => if 0 ≤ q then pinf else ninf
  | ninf, val q => if 0 ≤ q then ninf else pinf
  | val _, pinf => val 0
  | val _, ninf => val 0
  | val a, val b =>
      if b = 0 then (if a = 0 then nan else if 0 < a then pinf else ninf) else val (a / b)

/-- `f32::recip`, i.e. `1.0 / x`. -/
def frecip (x : F32) : F32 := fdiv (val 1) x

/-- IEEE square root: NaN on negative values, `Rat.sqrt` (exact on perfect
squares) on nonnegative finite values. -/
def fsqrt : F32 → F32
  | nan => nan
  | pinf => pinf
  | ninf => nan
  | val q => if q < 0 then nan else val (Rat.sqrt q)

/-- IEEE absolute value. -/
def fabs : F32 → F32
  | nan => nan
  | pinf => pinf
  | ninf => pinf
  | val q => val |q|

/-- The `<=` comparison of `f32` (false whenever a NaN is involved). -/
def fle : F32 → F32 → Bool
  | nan, _ => false
  | _, nan => false
  | ninf, _ => true
  | _, pinf => true
  | pinf, ninf => false
  | pinf, val _ => false
  | val _, ninf => false
  | val a, val b => decide (a ≤ b)

/-- The `<` comparison of `f32` (false whenever a NaN is involved). -/
def flt : F32 → F32 → Bool
  | nan, _ => false
  | _, nan => false
  | pinf, _ => false
  | _, ninf => false
  | ninf, _ => true
  | val _, pinf => true
  | val a, val b => decide (a < b)

/-- The `>` comparison of `f32`. -/
def fgt (a b : F32) : Bool := flt b a

/-- Total comparison used on non-NaN values (the value returned inside
`partial_cmp` when it is `Some`). -/
def fcmpCore : F32 → F32 → Ordering
  | nan, _ => .eq
  | _, nan => .eq
  | pinf, pinf => .eq
  | ninf, ninf => .eq
  | ninf, _ => .lt
  | _, ninf => .gt
  | pinf, _ => .gt
  | _, pinf => .lt
  | val a, val b => if a < b then .lt else if a = b then .eq else .gt

/-- `f32::partial_cmp`: `none` iff either operand is NaN. -/
def pcmp (a b : F32) : Option Ordering :=
  if a.isNan || b.isNan then none else some (fcmpCore a b)

/-- `f32::min`: ignores a NaN operand, returning the other one. -/
def fmin : F32 → F32 → F32
  | nan, b => b
  | a, nan => a
  | a, b => if fle a b then a else b

/-- Integer power `f32::powi` by repeated multiplication (exact in this
model). -/
def fpowi (x : F32) : ℕ → F32
  | 0 => val 1
  | n + 1 => fmul x (fpowi x n)

end F32

open F32

/-- `f32::partial_cmp` is `Some` whenever neither operand is NaN, so the
`unwrap` in the scene's nearest-hit comparator cannot panic on non-NaN
distances. -/
theorem pcmp_isSome_of_not_nan (a b : F32) (ha : a.isNan = false) (hb : b.isNan = false) :
    (pcmp a b).isSome = true := by
  simp [pcmp, ha, hb]

theorem fneg_fneg (a : F32) : fneg (fneg a) = a := by
  cases a <;> simp [fneg]

theorem fadd_comm (a b : F32) : fadd a b = fadd b a := by
  cases a <;> cases b <;> first
    | rfl
    | (rename_i q r; exact congrArg F32.val (add_comm q r))

theorem fadd_assoc (a b c : F32) : fadd (fadd a b) c = fadd a (fadd b c) := by
  cases a <;> cases b <;> cases c <;> first
    | rfl
    | (rename_i q r s; exact congrArg F32.val (add_assoc q r s))

theorem fadd_zero (a : F32) : fadd a (val 0) = a := by
  cases a <;> simp [fadd]

theorem zero_fadd (a : F32) : fadd (val 0) a = a := by
  cases a <;> simp [fadd]

theorem fneg_fadd (a b : F32) : fneg (fadd a b) = fadd (fneg a) (fneg b) := by
  cases a <;> cases b <;> first
    | rfl
    | (rename_i q r; exact congrArg F32.val (neg_add q r))

theorem fmul_fneg_right (a b : F32) : fmul a (fneg b) = fneg (fmul a b) := by
  cases a <;> cases b <;> first
    | rfl
    | (rename_i q r; exact congrArg F32.val (mul_neg q r))
    | (rename_i q
       simp only [fmul, fneg, neg_eq_zero, neg_pos]
       by_cases h0 : q = 0
       · simp [h0]
       · by_cases hp : 0 < q
         · simp [h0, hp, lt_asymm hp, fneg]
         · simp [h0, hp, (not_lt.mp hp).lt_of_ne h0, fneg])

/-! ## Vectors and points (`src/types/vect.rs`, `src/types/point.rs`)

`Vect3` and `Point3` are both triples of `f32`; the point/vector distinction
only restricts which operators exist (`Point3 - Point3 = Vect3`,
`Point3 ± Vect3 = Point3`), and all of them act componentwise exactly like
the corresponding `Vect3` operators, so one carrier type `V3` models both. -/

/-- A triple of `f32` values, modelling both `Vect3` and `Point3`. -/
structure V3 where
  x : F32
  y : F32
  z : F32
deriving DecidableEq, Repr

/-- Lift a rational triple to a finite `V3`. -/
def vq (a b c : ℚ) : V3 := ⟨F32.val a, F32.val b, F32.val c⟩

/-- Componentwise addition (`Vect3 + Vect3`, `Point3 + Vect3`). -/
def vadd (a b : V3) : V3 := ⟨fadd a.x b.x, fadd a.y b.y, fadd a.z b.z⟩

/-- Componentwise subtraction (`Vect3 - Vect3`, `Point3 - Point3`; the source
implements `Point3 - Vect3` as `a + (-b)`, which is the same function). -/
def vsub (a b : V3) : V3 := ⟨fsub a.x b.x, fsub a.y b.y, fsub a.z b.z⟩

/-- Componentwise negation (`-Vect3`; the source computes `zero - a`, which
agrees with componentwise negation in this model). -/
def vneg (a : V3) : V3 := ⟨fneg a.x, fneg a.y, fneg a.z⟩

/-- Scalar multiplication; the source's commutative `impl` computes
`a.x() * b` componentwise for both `Vect3 * f32` and `f32 * Vect3`. -/
def vscale (a : V3) (b : F32) : V3 := ⟨fmul a.x b, fmul a.y b, fmul a.z b⟩

/-- `Vect3 / f32`, implemented in the source as `a * b.recip()`. -/
def vdivS (a : V3) (b : F32) : V3 := vscale a (frecip b)

/-- `Vect3::dot` (the source sums left-associatively: `(xx + yy) + zz`). -/
def dotV (a b : V3) : F32 :=
  fadd (fadd (fmul a.x b.x) (fmul a.y b.y)) (fmul a.z b.z)

/-- `Vect3::cross`. -/
def crossV (a b : V3) : V3 :=
  ⟨fsub (fmul a.y b.z) (fmul a.z b.y),
   fsub (fmul a.z b.x) (fmul a.x b.z),
   fsub (fmul a.x b.y) (fmul a.y b.x)⟩

/-- `Vect3::norm`: `self.dot(self).sqrt()`. -/
def normV (a : V3) : F32 := fsqrt (dotV a a)

/-- `Vect3::normalize`: `self / self.norm()` (so a zero vector normalizes to
an all-NaN vector via `0 * (1/0) = 0 * ∞ = NaN`, as in `f32`). -/
def normalizeV (a : V3) : V3 := vdivS a (normV a)

/-- `Vect3::project`: `(self.dot(other) / self.dot(self)) * self`, the
projection of `other` onto `self`. -/
def projV (a other : V3) : V3 := vscale a (fdiv (dotV a other) (dotV a a))

/-! ## Rays and intersections (`src/types/ray.rs`, `src/surfaces/mod.rs`) -/

/-- A ray: origin plus direction (`Ray::new` stores the normalized
direction). -/
structure RayM where
  origin : V3
  direction : V3
deriving DecidableEq, Repr

/-- `Ray::new`: normalizes the direction. -/
def RayM.new (o d : V3) : RayM := ⟨o, normalizeV d⟩

/-- `Ray::at`: `self.origin + (distance * self.direction)`. -/
def RayM.at (r : RayM) (t : F32) : V3 := vadd r.origin (vscale r.direction t)

/-- An intersection record: point and (stored normalized) normal. -/
structure Intersection where
  point : V3
  normal : V3
deriving DecidableEq, Repr

/-- `Intersection::new`: normalizes the given normal. -/
def Intersection.new (p n : V3) : Intersection := ⟨p, normalizeV n⟩

/-- The half-open distance range `std::ops::Range<f32>` used as intersection
filter. -/
structure FRange where
  start : F32
  stop : F32
deriving DecidableEq, Repr

/-- `Range::contains`: `start <= item && item < end` (false for NaN). -/
def FRange.contains (r : FRange) (x : F32) : Bool :=
  fle r.start x && flt x r.stop

/-! ## Sphere intersection (`src/surfaces/sphere.rs`) -/

/-- An intersectable sphere. -/
structure Sphere where
  center : V3
  radius : F32
deriving DecidableEq, Repr

/-- `Sphere::intersected_by` (trait `Surface`, `src/surfaces/sphere.rs`):
solve `a·t² + 2b·t + c = 0`, keep the two candidate roots that fall in the
filter range, and build an `Intersection` with point `ray.at(t)` and normal
`(point - center) / radius` for each. -/
def Sphere.intersectedBy (s : Sphere) (ray : RayM) (filter : FRange) : List Intersection :=
  let offset := vsub ray.origin s.center
  let a := dotV ray.direction ray.direction
  let b := dotV offset ray.direction
  let c := fsub (dotV offset offset) (fmul s.radius s.radius)
  let distances := [fdiv (fsub (fneg b) (fsqrt (fsub (fmul b b) (fmul a c)))) a,
                    fdiv (fadd (fneg b) (fsqrt (fsub (fmul b b) (fmul a c)))) a]
  (distances.filter fun d => filter.contains d).map fun d =>
    Intersection.new (ray.at d) (vdivS (vsub (ray.at d) s.center) s.radius)

/-! ## Pixels (`src/image.rs`) -/

/-- A pixel / color: three `f32` channels (the source's `image::Pixel` and
`materials::Color` are both RGB `f32` triples; we use one type for both). -/
structure Pixel where
  r : F32
  g : F32
  b : F32
deriving DecidableEq, Repr

/-- `Pixel::default()`: black. -/
def Pixel.black : Pixel := ⟨F32.val 0, F32.val 0, F32.val 0⟩

/-- Componentwise pixel addition (`Pixel + Pixel`). -/
def paddP (a b : Pixel) : Pixel := ⟨fadd a.r b.r, fadd a.g b.g, fadd a.b b.b⟩

/-- Componentwise pixel multiplication (the integrator's
`rendered.r * attenuation.r` etc.). -/
def pmulP (a b : Pixel) : Pixel := ⟨fmul a.r b.r, fmul a.g b.g, fmul a.b b.b⟩

/-- Pixel divided by a scalar, componentwise direct `f32` division
(`impl_op` for `Pixel / f32`). -/
def pdivS (a : Pixel) (s : F32) : Pixel := ⟨fdiv a.r s, fdiv a.g s, fdiv a.b s⟩

/-! ## Scene nearest-hit (`src/scene.rs`, `Ray::intersects`)

The scene stores trait objects `Box<dyn Surface>` / `Box<dyn Material>`;
a surface trait object is modelled by its dispatch function
`hit : RayM → Option Intersection` (the shape of the
`object.surface.intersected_by(self)` call in `Ray::intersects`), and the
material payload is kept polymorphic, since `intersects` never inspects it. -/

/-- An object: a surface (as its intersection dispatch function) bound to a
material payload. -/
structure ObjectM (μ : Type) where
  hit : RayM → Option Intersection
  material : μ

/-- A scene: an ordered collection of objects. -/
structure SceneM (μ : Type) where
  objects : List (ObjectM μ)

/-- The `filter_map` step of `Ray::intersects`: each object's intersection
paired with its material. -/
def hitCandidates {μ : Type} (ray : RayM) (scene : SceneM μ) : List (Intersection × μ) :=
  scene.objects.filterMap fun o => (o.hit ray).map fun i => (i, o.material)

/-- Euclidean distance from the ray origin to an intersection point, as
computed by `Ray::intersects`: `(match.0.point() - self.origin()).norm()`. -/
def hitDistance (ray : RayM) (i : Intersection) : F32 :=
  normV (vsub i.point ray.origin)

/-- The `map`+`filter` steps of `Ray::intersects`: attach distances, keep
candidates whose distance lies in the filter range. -/
def passing {μ : Type} (ray : RayM) (scene : SceneM μ) (filter : FRange) :
    List ((Intersection × μ) × F32) :=
  ((hitCandidates ray scene).map fun m => (m, hitDistance ray m.1)).filter
    fun md => filter.contains md.2

/-- The NaN-aware comparator passed to `min_by` in `Ray::intersects`.  In the
both-non-NaN arm the source unwraps `partial_cmp`, which is always `Some`
there (`pcmp_isSome_of_not_nan`); the `getD` default is never used. -/
def distOrd (a b : F32) : Ordering :=
  match a.isNan, b.isNan with
  | true, true => .eq
  | true, false => .gt
  | false, true => .lt
  | false, false => (pcmp a b).getD .eq

/-- Rust `Iterator::min_by`: the first element that is minimal with respect
to the comparator (implemented as a left fold that keeps the accumulator
unless it compares greater). -/
def minBy {α : Type} (f : α → α → Ordering) : List α → Option α
  | [] => none
  | x :: xs => some (xs.foldl (fun acc y => if f acc y = .gt then y else acc) x)

/-- `Ray::intersects` (`src/scene.rs`): nearest passing candidate with its
material. -/
def rayIntersects {μ : Type} (ray : RayM) (scene : SceneM μ) (filter : FRange) :
    Option (Intersection × μ) :=
  (minBy (fun a b => distOrd a.2 b.2) (passing ray scene filter)).map fun md => md.1

/-! ## Integrator (`src/scene.rs`, `Scene::render_ray`)

A `dyn Material` is modelled by its dispatch function from the incoming ray
and intersection to the list of (scattered ray, attenuation) pairs; the
randomness inside concrete materials is resolved in that function (each
`MaterialFn` represents one realization of the random draws). -/

/-- Material trait object: `scatter_at` dispatch. -/
abbrev MaterialFn : Type := RayM → Intersection → List (RayM × Pixel)

/-- `Scene::render_ray`: black at depth 0; on a hit, average the attenuated
recursive results of all scattered rays (black if none); otherwise the
background gradient with `t = 0.5 * (direction.y + 1.0)`. -/
def renderRay (scene : SceneM MaterialFn) : ℕ → RayM → Pixel
  | 0, _ => Pixel.black
  | Nat.succ depth, ray =>
    match rayIntersects ray scene ⟨F32.val (1 / 1000), F32.pinf⟩ with
    | some im =>
      let scatters := im.2 ray im.1
      let acc := (scatters.map fun rc =>
        pmulP (renderRay scene depth rc.1) rc.2).foldl paddP Pixel.black
      if scatters.isEmpty then Pixel.black
      else pdivS acc (F32.val (scatters.length : ℚ))
    | none =>
      let t := fmul (F32.val (1 / 2)) (fadd ray.direction.y (F32.val 1))
      ⟨fadd (fmul (fsub (F32.val 1) t) (F32.val 1)) (fmul t (F32.val (1 / 2))),
       fadd (fmul (fsub (F32.val 1) t) (F32.val 1)) (fmul t (F32.val (7 / 10))),
       fadd (fmul (fsub (F32.val 1) t) (F32.val 1)) (fmul t (F32.val 1))⟩

/-! ## Diffuse materials (`src/materials/diffuse.rs`) -/

/-- `rand_point_on_sphere`: `g` is the triple of standard-normal draws made
explicit.  The source redraws while `g.norm() == 0.0`, so the draw is
conditioned on a nonzero norm; the guard branch is unreachable under that
conditioning (we return `origin` there). -/
def randPointOnSphere (g : V3) (origin : V3) (radius : F32) : V3 :=
  if normV g = F32.val 0 then origin
  else vadd origin (vscale g (fdiv radius (normV g)))

/-- A lambertian diffuse material. -/
structure Lambertian where
  attenuation : Pixel
deriving DecidableEq, Repr

/-- `Lambertian::scatter_at` (this revision of `diffuse.rs` returns a single
pair and has no degenerate-direction fallback): scatter from the hit point
towards a random point on the unit sphere around `point + normal`. -/
def Lambertian.scatterAt (m : Lambertian) (g : V3) (i : Intersection) :
    RayM × Pixel :=
  let origin := i.point
  let center := vadd origin i.normal
  let direction := vsub (randPointOnSphere g center (F32.val 1)) origin
  (RayM.new origin direction, m.attenuation)

/-- A hemispherical diffuse material. -/
structure Hemispherical where
  attenuation : Pixel
deriving DecidableEq, Repr

/-- `Hemispherical::scatter_at`: scatter towards a random point on the unit
sphere around the hit point, folded into the outward hemisphere. -/
def Hemispherical.scatterAt (m : Hemispherical) (g : V3) (i : Intersection) :
    RayM × Pixel :=
  let origin := i.point
  let direction := vsub (randPointOnSphere g origin (F32.val 1)) origin
  if fgt (dotV direction i.normal) (F32.val 0) = true then
    (RayM.new origin direction, m.attenuation)
  else
    (RayM.new origin (vneg direction), m.attenuation)

/-! ## Metal (`src/materials/reflective.rs`) -/

/-- `rand_point_on_disk`: `d0`, `d1` are the `UnitDisc` draws made explicit.
The in-plane basis comes from projecting `(1,0,0)` out of `normal`. -/
def randPointOnDisk (d0 d1 : ℚ) (normal : V3) (radius : F32) : V3 :=
  let horiz := vq 1 0 0
  let x := normalizeV (vsub horiz (projV normal horiz))
  let y := crossV normal x
  vadd (vscale (vscale x (F32.val d0)) radius) (vscale (vscale y (F32.val d1)) radius)

/-- A reflective metal-like material. -/
structure Metal where
  attenuation : Pixel
  pertubation : F32
deriving DecidableEq, Repr

/-- `Metal::scatter_at`: reflect about the normal, perturb by a random disk
point scaled by the fuzziness, absorb if the result points into the
surface. -/
def Metal.scatterAt (m : Metal) (d0 d1 : ℚ) (ray : RayM) (i : Intersection) :
    List (RayM × Pixel) :=
  let normal := i.normal
  let incident := ray.direction
  let reflection := vsub incident (vscale normal (fmul (F32.val 2) (dotV incident normal)))
  let direction := vadd reflection (randPointOnDisk d0 d1 reflection m.pertubation)
  if fgt (dotV direction i.normal) (F32.val 0) = true then
    [(RayM.new i.point direction, m.attenuation)]
  else []

/-! ## Dielectric (`src/materials/dielectric.rs`) -/

theorem vneg_vneg (v : V3) : vneg (vneg v) = v := by
  cases v
  simp [vneg, fneg_fneg]

theorem dotV_vneg_right (a b : V3) : dotV a (vneg b) = fneg (dotV a b) := by
  cases a
  cases b
  simp [dotV, vneg, fmul_fneg_right, fneg_fadd]

/-- If the clamped cosine `min(d, 1)` is negative then the clamped cosine of
the negated dot product is not: this is why `refract`'s flipped recursive
call immediately takes the non-flipping branch. -/
theorem fmin_flt_zero_flip (d : F32)
    (h : flt (fmin d (F32.val 1)) (F32.val 0) = true) :
    flt (fmin (fneg d) (F32.val 1)) (F32.val 0) = false := by
  cases d with
  | nan =>
    simp [fmin, flt] at h
    exact absurd h (by norm_num)
  | pinf =>
    simp [fmin, fle, flt] at h
    exact absurd h (by norm_num)
  | ninf => simp [fneg, fmin, fle, flt]
  | val q =>
    have hq : q < 0 := by
      by_cases h1 : q ≤ 1
      · simpa [fmin, fle, flt, h1] using h
      · simp [fmin, fle, flt, h1] at h
        exact absurd h (by norm_num)
    by_cases h3 : (-q : ℚ) ≤ 1
    · have h4 : flt (F32.val (-q)) (F32.val 0) = false := by
        simp [flt]
        linarith
      simp [fneg, fmin, fle, h3, h4]
    · simp [fneg, fmin, fle, h3, flt]
      try norm_num

/-- `refract` (`src/materials/dielectric.rs`), with the uniform random draw
`p` made explicit.  If the ray is exiting (cosine against `-normal`
negative), recurse with flipped normal and inverted ratio; otherwise choose
between the specular reflection and the Snell refraction.  The recursion
terminates because the flipped call's cosine is nonnegative
(`fmin_flt_zero_flip`). -/
def refract (incident normal : V3) (ratio : F32) (p : ℚ) : V3 :=
  match h : flt (fmin (dotV incident (vneg normal)) (F32.val 1)) (F32.val 0) with
  | true =>
    refract incident (vneg normal) (frecip ratio) p
  | false =>
    let cosT := fmin (dotV incident (vneg normal)) (F32.val 1)
    let sinT := fsqrt (fsub (F32.val 1) (fmul cosT cosT))
    let reflection := vsub incident (vscale normal (fmul (F32.val 2) (dotV incident normal)))
    let orthogonal := vscale (vadd incident (vscale normal cosT)) ratio
    let parallel :=
      vscale normal (fneg (fsqrt (fabs (fsub (F32.val 1) (dotV orthogonal orthogonal)))))
    let refraction := vadd orthogonal parallel
    let reflectance :=
      let r0 := fdiv (fsub (F32.val 1) ratio) (fadd (F32.val 1) ratio)
      fadd (fmul r0 r0) (fmul (fsub (F32.val 1) (fmul r0 r0)) (fpowi (fsub (F32.val 1) cosT) 5))
    if (fgt (fmul ratio sinT) (F32.val 1) || fgt reflectance (F32.val p)) = true
    then reflection else refraction
termination_by
  (if flt (fmin (dotV incident (vneg normal)) (F32.val 1)) (F32.val 0) = true then 1 else 0)
decreasing_by
  simp_wf
  rw [vneg_vneg]
  rw [dotV_vneg_right] at h ⊢
  have h2 := fmin_flt_zero_flip _ h
  rw [fneg_fneg] at h2
  rw [h, h2]
  norm_num

/-- A refractive dielectric material. -/
structure Dielectric where
  attenuation : Pixel
  refraction : F32
deriving DecidableEq, Repr

/-- `Dielectric::scatter_at`: always exactly one pair, refracting with the
inverted refraction index as ratio. -/
def Dielectric.scatterAt (m : Dielectric) (p : ℚ) (ray : RayM) (i : Intersection) :
    List (RayM × Pixel) :=
  [(RayM.new i.point (refract ray.direction i.normal (frecip m.refraction) p), m.attenuation)]

/-! ## Image serialization (`src/image.rs`, `src/lib.rs::write_pgm`) -/

/-- An image: width, height and the row-major pixel buffer (`Image::new`
guarantees `pixels.length = width * height`). -/
structure ImageM where
  width : ℕ
  height : ℕ
  pixels : List Pixel
deriving DecidableEq, Repr

/-- Row iteration (`pixels.chunks_exact(width)`), which yields exactly the
`height` rows when the buffer holds `width * height` pixels. -/
def ImageM.rows (img : ImageM) : List (List Pixel) :=
  (List.range img.height).map fun i => (img.pixels.drop (i * img.width)).take img.width

/-- Rust `f32::round`: round half away from zero. -/
def rustRound (q : ℚ) : ℤ := if 0 ≤ q then ⌊q + 1 / 2⌋ else -⌊-q + 1 / 2⌋

/-- Rust `f32::round` lifted to the model. -/
def froundF : F32 → F32
  | F32.nan => F32.nan
  | F32.pinf => F32.pinf
  | F32.ninf => F32.ninf
  | F32.val q => F32.val (rustRound q)

/-- Rust's saturating float-to-`u8` cast (`as u8`): NaN maps to 0,
truncation toward zero, clamping to `[0, 255]`. -/
def castU8 : F32 → ℕ
  | F32.nan => 0
  | F32.pinf => 255
  | F32.ninf => 0
  | F32.val q => if q ≤ 0 then 0 else if 255 ≤ q then 255 else ⌊q⌋.toNat

/-- `f32::powf`.  The general power function is transcendental and cannot be
carried exactly; only the exponent-1 case — the one exercised through
`gamma = 1.0`, where IEEE `powf(x, 1.0) = x` exactly — is modelled, and
every other exponent maps to NaN so that no theorem can rely on it. -/
def fpowf (x e : F32) : F32 := if e = F32.val 1 then x else F32.nan

/-- One output channel of `write_pgm`:
`(channel.powf(gamma.recip()) * 255.0).round() as u8`. -/
def pgmChannel (gamma : F32) (c : F32) : ℕ :=
  castU8 (froundF (fmul (fpowf c (frecip gamma)) (F32.val 255)))

/-- One pixel line of `write_pgm`, `"{} {} {}"` over the three channels. -/
def pixelLine (gamma : F32) (p : Pixel) : String :=
  toString (pgmChannel gamma p.r) ++ " " ++ toString (pgmChannel gamma p.g) ++
    " " ++ toString (pgmChannel gamma p.b)

/-- `write_pgm` (`src/lib.rs`) as the list of lines it writes: the `P3`
header, the dimensions, `255`, then one line per pixel in image row order. -/
def writePgm (img : ImageM) (gamma : F32) : List String :=
  ["P3", toString img.width ++ " " ++ toString img.height, "255"] ++
    (img.rows.map fun row => row.map (pixelLine gamma)).flatten

/-! ## Computation lemmas for finite values -/

@[simp] theorem isNan_val (q : ℚ) : (F32.val q).isNan = false := rfl

@[simp] theorem isNan_pinf : F32.pinf.isNan = false := rfl

@[simp] theorem isNan_ninf : F32.ninf.isNan = false := rfl

@[simp] theorem fneg_val (q : ℚ) : fneg (F32.val q) = F32.val (-q) := rfl

@[simp] theorem fadd_val (a b : ℚ) : fadd (F32.val a) (F32.val b) = F32.val (a + b) := rfl

@[simp] theorem fsub_val (a b : ℚ) : fsub (F32.val a) (F32.val b) = F32.val (a - b) := by
  simp [fsub, sub_eq_add_neg]

@[simp] theorem fmul_val (a b : ℚ) : fmul (F32.val a) (F32.val b) = F32.val (a * b) := rfl

theorem fdiv_val (a : ℚ) {b : ℚ} (hb : b ≠ 0) :
    fdiv (F32.val a) (F32.val b) = F32.val (a / b) := by
  simp [fdiv, hb]

theorem frecip_val {b : ℚ} (hb : b ≠ 0) : frecip (F32.val b) = F32.val b⁻¹ := by
  rw [frecip, fdiv_val 1 hb, one_div]

theorem fsqrt_val {q : ℚ} (h : 0 ≤ q) : fsqrt (F32.val q) = F32.val (Rat.sqrt q) := by
  simp [fsqrt, not_lt.mpr h]

@[simp] theorem fle_val (a b : ℚ) : fle (F32.val a) (F32.val b) = decide (a ≤ b) := rfl

@[simp] theorem flt_val (a b : ℚ) : flt (F32.val a) (F32.val b) = decide (a < b) := rfl

@[simp] theorem fgt_val (a b : ℚ) : fgt (F32.val a) (F32.val b) = decide (b < a) := rfl

@[simp] theorem fmin_val (a b : ℚ) :
    fmin (F32.val a) (F32.val b) = F32.val (min a b) := by
  by_cases h : a ≤ b <;> simp [fmin, h, min_def]

@[simp] theorem vq_x (a b c : ℚ) : (vq a b c).x = F32.val a := rfl

@[simp] theorem vq_y (a b c : ℚ) : (vq a b c).y = F32.val b := rfl

@[simp] theorem vq_z (a b c : ℚ) : (vq a b c).z = F32.val c := rfl

@[simp] theorem vadd_vq (a b c d e f : ℚ) :
    vadd (vq a b c) (vq d e f) = vq (a + d) (b + e) (c + f) := by
  simp [vadd, vq]

@[simp] theorem vsub_vq (a b c d e f : ℚ) :
    vsub (vq a b c) (vq d e f) = vq (a - d) (b - e) (c - f) := by
  simp [vsub, vq]

@[simp] theorem vneg_vq (a b c : ℚ) : vneg (vq a b c) = vq (-a) (-b) (-c) := by
  simp [vneg, vq]

@[simp] theorem vscale_vq (a b c s : ℚ) :
    vscale (vq a b c) (F32.val s) = vq (a * s) (b * s) (c * s) := by
  simp [vscale, vq]

@[simp] theorem dotV_vq (a b c d e f : ℚ) :
    dotV (vq a b c) (vq d e f) = F32.val (a * d + b * e + c * f) := by
  simp [dotV, vq, add_assoc]

@[simp] theorem crossV_vq (a b c d e f : ℚ) :
    crossV (vq a b c) (vq d e f) =
      vq (b * f - c * e) (c * d - a * f) (a * e - b * d) := by
  simp [crossV, vq]

/-- `Rat.sqrt` is exact on perfect squares. -/
theorem ratSqrt_sq {q : ℚ} (h : 0 ≤ q) : Rat.sqrt (q * q) = q := by
  rw [Rat.sqrt_eq]
  exact abs_of_nonneg h

@[simp] theorem ratSqrt_zero : Rat.sqrt 0 = 0 := by
  nth_rewrite 1 [show (0 : ℚ) = 0 * 0 by norm_num]
  exact ratSqrt_sq le_rfl

@[simp] theorem ratSqrt_one : Rat.sqrt 1 = 1 := by
  nth_rewrite 1 [show (1 : ℚ) = 1 * 1 by norm_num]
  exact ratSqrt_sq zero_le_one

/-- `Rat.sqrt` of a positive rational is positive (its numerator's integer
square root and its denominator's square root are both at least 1). -/
theorem ratSqrt_pos {q : ℚ} (h : 0 < q) : 0 < Rat.sqrt q := by
  have hne : Rat.sqrt q ≠ 0 := by
    have hd : Nat.sqrt q.den ≠ 0 := by
      simp only [ne_eq, Nat.sqrt_eq_zero]
      exact q.den_ne_zero
    rw [Rat.sqrt, Rat.mkRat_ne_zero hd]
    have hnum : 0 < q.num := Rat.num_pos.mpr h
    unfold Int.sqrt
    simp only [ne_eq, Int.natCast_eq_zero, Nat.sqrt_eq_zero]
    omega
  exact lt_of_le_of_ne (Rat.sqrt_nonneg q) (Ne.symm hne)

/-! ## Order lemmas for non-NaN values -/

theorem fle_nan_right (a : F32) : fle a F32.nan = false := by
  cases a <;> rfl

theorem fle_refl_nn {a : F32} (h : a.isNan = false) : fle a a = true := by
  cases a <;> simp_all [fle, isNan]

theorem fle_of_flt {a b : F32} (h : flt a b = true) : fle a b = true := by
  cases a <;> cases b <;> simp_all [fle, flt] <;> linarith

theorem fle_trans {a b c : F32} (hab : fle a b = true) (hbc : fle b c = true) :
    fle a c = true := by
  cases a <;> cases b <;> cases c <;> simp_all [fle] <;> linarith

theorem fle_antisymm {a b : F32} (hab : fle a b = true) (hba : fle b a = true) :
    a = b := by
  cases a <;> cases b <;> simp_all [fle]
  exact le_antisymm hab hba

theorem distOrd_gt_flt {a b : F32} (ha : a.isNan = false) (hb : b.isNan = false)
    (h : distOrd a b = .gt) : flt b a = true := by
  cases a with
  | nan => simp [isNan] at ha
  | pinf => cases b <;> simp_all [distOrd, pcmp, fcmpCore, isNan, flt]
  | ninf => cases b <;> simp_all [distOrd, pcmp, fcmpCore, isNan, flt]
  | val q =>
    cases b with
    | nan => simp [isNan] at hb
    | pinf => simp_all [distOrd, pcmp, fcmpCore, isNan, flt]
    | ninf => simp_all [distOrd, pcmp, fcmpCore, isNan, flt]
    | val r =>
      simp only [distOrd, pcmp, fcmpCore, isNan, Bool.or_self, Bool.false_or,
        if_false, Option.getD_some, ite_false, Bool.or_false] at h
      simp only [flt_val, decide_eq_true_eq]
      by_cases h1 : q < r
      · simp [h1] at h
      · by_cases h2 : q = r
        · simp [h1, h2] at h
        · exact lt_of_le_of_ne (not_lt.mp h1) fun hrq => h2 hrq.symm

theorem fle_of_distOrd_ne_gt {a b : F32} (ha : a.isNan = false) (hb : b.isNan = false)
    (h : ¬distOrd a b = .gt) : fle a b = true := by
  cases a with
  | nan => simp [isNan] at ha
  | pinf => cases b <;> simp_all [distOrd, pcmp, fcmpCore, isNan, fle]
  | ninf => cases b <;> simp_all [distOrd, pcmp, fcmpCore, isNan, fle]
  | val q =>
    cases b with
    | nan => simp [isNan] at hb
    | pinf => simp_all [distOrd, pcmp, fcmpCore, isNan, fle]
    | ninf => simp_all [distOrd, pcmp, fcmpCore, isNan, fle]
    | val r =>
      simp only [distOrd, pcmp, fcmpCore, isNan, Bool.or_self, Bool.false_or,
        if_false, Option.getD_some, ite_false, Bool.or_false] at h
      simp only [fle_val, decide_eq_true_eq]
      by_cases h1 : q < r
      · exact le_of_lt h1
      · by_cases h2 : q = r
        · exact le_of_eq h2
        · simp [h1, h2] at h

/-- A value inside a distance range is not NaN: `contains` is a conjunction
of comparisons, and comparisons involving NaN are false. -/
theorem isNan_false_of_contains {r : FRange} {x : F32} (h : r.contains x = true) :
    x.isNan = false := by
  cases x <;> simp_all [FRange.contains, fle_nan_right, isNan]

/-! ## Properties of `min_by` -/

theorem minBy_eq_none {α : Type} (f : α → α → Ordering) (l : List α) :
    minBy f l = none ↔ l = [] := by
  cases l <;> simp [minBy]

theorem foldl_min_mem {α : Type} (f : α → α → Ordering) :
    ∀ (as : List α) (a : α),
      as.foldl (fun acc y => if f acc y = Ordering.gt then y else acc) a ∈ a :: as := by
  intro as
  induction as with
  | nil => intro a; simp
  | cons b bs ih =>
    intro a
    simp only [List.foldl_cons]
    by_cases h : f a b = Ordering.gt
    · rw [if_pos h]
      exact List.mem_cons_of_mem a (ih b)
    · rw [if_neg h]
      rcases List.mem_cons.mp (ih a) with h' | h'
      · exact List.mem_cons.mpr (Or.inl h')
      · exact List.mem_cons_of_mem a (List.mem_cons_of_mem b h')

theorem minBy_mem {α : Type} {f : α → α → Ordering} {l : List α} {x : α}
    (h : minBy f l = some x) : x ∈ l := by
  cases l with
  | nil => simp [minBy] at h
  | cons a as =>
    simp only [minBy, Option.some.injEq] at h
    exact h ▸ foldl_min_mem f as a

theorem foldl_min_le {α : Type} (key : α → F32) :
    ∀ (as : List α) (a : α), (key a).isNan = false →
      (∀ y ∈ as, (key y).isNan = false) →
      fle (key (as.foldl
          (fun acc y => if distOrd (key acc) (key y) = Ordering.gt then y else acc) a))
        (key a) = true ∧
      ∀ y ∈ as,
        fle (key (as.foldl
            (fun acc y => if distOrd (key acc) (key y) = Ordering.gt then y else acc) a))
          (key y) = true := by
  intro as
  induction as with
  | nil =>
    intro a ha _
    exact ⟨fle_refl_nn ha, by simp⟩
  | cons b bs ih =>
    intro a ha hbs
    have hb : (key b).isNan = false := hbs b (List.mem_cons_self b bs)
    have hbs' : ∀ y ∈ bs, (key y).isNan = false :=
      fun y hy => hbs y (List.mem_cons_of_mem b hy)
    simp only [List.foldl_cons]
    by_cases h : distOrd (key a) (key b) = Ordering.gt
    · rw [if_pos h]
      have hba : fle (key b) (key a) = true := fle_of_flt (distOrd_gt_flt ha hb h)
      rcases ih b hb hbs' with ⟨h1, h2⟩
      refine ⟨fle_trans h1 hba, ?_⟩
      intro y hy
      rcases List.mem_cons.mp hy with rfl | hy'
      · exact h1
      · exact h2 y hy'
    · rw [if_neg h]
      have hab : fle (key a) (key b) = true := fle_of_distOrd_ne_gt ha hb h
      rcases ih a ha hbs' with ⟨h1, h2⟩
      refine ⟨h1, ?_⟩
      intro y hy
      rcases List.mem_cons.mp hy with rfl | hy'
      · exact fle_trans h1 hab
      · exact h2 y hy'

theorem minBy_min {α : Type} (key : α → F32) {l : List α} {x : α}
    (hnn : ∀ y ∈ l, (key y).isNan = false)
    (h : minBy (fun a b => distOrd (key a) (key b)) l = some x) :
    ∀ y ∈ l, fle (key x) (key y) = true := by
  cases l with
  | nil => simp [minBy] at h
  | cons a as =>
    simp only [minBy, Option.some.injEq] at h
    have ha : (key a).isNan = false := hnn a (List.mem_cons_self a as)
    have has : ∀ y ∈ as, (key y).isNan = false :=
      fun y hy => hnn y (List.mem_cons_of_mem a hy)
    rcases foldl_min_le key as a ha has with ⟨h1, h2⟩
    intro y hy
    rcases List.mem_cons.mp hy with rfl | hy'
    · exact h ▸ h1
    · exact h ▸ h2 y hy'

/-! ## Structure of the `passing` candidate list -/

theorem passing_shape {μ : Type} {ray : RayM} {scene : SceneM μ} {filter : FRange}
    {c : (Intersection × μ) × F32} (h : c ∈ passing ray scene filter) :
    (∃ o ∈ scene.objects, o.hit ray = some c.1.1 ∧ o.material = c.1.2) ∧
      c.2 = hitDistance ray c.1.1 ∧ filter.contains c.2 = true := by
  rcases List.mem_filter.mp h with ⟨hmem, hcont⟩
  rcases List.mem_map.mp hmem with ⟨m, hm, rfl⟩
  rcases List.mem_filterMap.mp hm with ⟨o, ho, hhit⟩
  rcases Option.map_eq_some'.mp hhit with ⟨i, hi, hmi⟩
  refine ⟨⟨o, ho, ?_, ?_⟩, rfl, hcont⟩
  · rw [hi, ← hmi]
  · rw [← hmi]

theorem passing_complete {μ : Type} {ray : RayM} {scene : SceneM μ} {filter : FRange}
    {o : ObjectM μ} {i : Intersection} (ho : o ∈ scene.objects) (hi : o.hit ray = some i)
    (hc : filter.contains (hitDistance ray i) = true) :
    ((i, o.material), hitDistance ray i) ∈ passing ray scene filter := by
  apply List.mem_filter.mpr
  refine ⟨?_, hc⟩
  apply List.mem_map.mpr
  refine ⟨(i, o.material), ?_, rfl⟩
  apply List.mem_filterMap.mpr
  exact ⟨o, ho, by rw [hi]; rfl⟩

/-- C1: for every scene, ray and distance range, the nearest-hit search
considers every object's reported intersection, keeps only candidates whose
origin-to-hit-point distance passes the range filter (which rejects NaN
distances), and returns a passing candidate of minimum distance paired with
its object's material — `none` when no candidate passes — and the
`partial_cmp` unwrap inside the comparator cannot panic because both
compared distances passed the filter and are therefore not NaN. -/
theorem c1_nearest_hit {μ : Type} (ray : RayM) (scene : SceneM μ) (filter : FRange) :
    (∀ i m, rayIntersects ray scene filter = some (i, m) →
      (∃ o ∈ scene.objects, o.hit ray = some i ∧ o.material = m) ∧
      filter.contains (hitDistance ray i) = true ∧
      (hitDistance ray i).isNan = false ∧
      ∀ c ∈ passing ray scene filter, fle (hitDistance ray i) c.2 = true) ∧
    ((∃ o ∈ scene.objects, ∃ i, o.hit ray = some i ∧
        filter.contains (hitDistance ray i) = true) →
      (rayIntersects ray scene filter).isSome = true) ∧
    (∀ a b : F32, a.isNan = false → b.isNan = false → (pcmp a b).isSome = true) := by
  refine ⟨?_, ?_, fun a b => pcmp_isSome_of_not_nan a b⟩
  · intro i m h
    rcases Option.map_eq_some'.mp h with ⟨c, hc, hc1⟩
    have hcmem : c ∈ passing ray scene filter := minBy_mem hc
    rcases passing_shape hcmem with ⟨hobj, hdist, hcont⟩
    have hnn : ∀ y ∈ passing ray scene filter, y.2.isNan = false := by
      intro y hy
      exact isNan_false_of_contains (passing_shape hy).2.2
    have hmin := minBy_min (fun md : (Intersection × μ) × F32 => md.2) hnn hc
    rw [hc1] at hobj hdist
    dsimp only at hobj hdist
    rw [hdist] at hcont
    have hmin' : ∀ y ∈ passing ray scene filter, fle (hitDistance ray i) y.2 = true := by
      intro y hy
      have h2 : fle c.2 y.2 = true := hmin y hy
      rwa [hdist] at h2
    exact ⟨hobj, hcont, isNan_false_of_contains hcont, hmin'⟩
  · rintro ⟨o, ho, i, hi, hc⟩
    have hne : passing ray scene filter ≠ [] :=
      List.ne_nil_of_mem (passing_complete ho hi hc)
    rcases Option.eq_none_or_eq_some
        (minBy (fun a b => distOrd a.2 b.2) (passing ray scene filter)) with h | ⟨x, h⟩
    · exact absurd ((minBy_eq_none _ _).mp h) hne
    · simp [rayIntersects, h]

/-- Closed instance for C1: a one-object scene hit at distance 1 by a ray
from the origin, with an all-pass range. -/
theorem c1_nearest_hit_witness :
    (rayIntersects (RayM.mk (vq 0 0 0) (vq 0 0 1))
        (SceneM.mk [ObjectM.mk (fun _ => some (Intersection.mk (vq 0 0 1) (vq 0 0 1))) (0 : ℕ)])
        (FRange.mk (F32.val 0) F32.pinf)).isSome = true ∧
    (FRange.mk (F32.val 0) F32.pinf).contains
      (hitDistance (RayM.mk (vq 0 0 0) (vq 0 0 1))
        (Intersection.mk (vq 0 0 1) (vq 0 0 1))) = true := by
  have hcont : (FRange.mk (F32.val 0) F32.pinf).contains
      (hitDistance (RayM.mk (vq 0 0 0) (vq 0 0 1))
        (Intersection.mk (vq 0 0 1) (vq 0 0 1))) = true := by
    norm_num [hitDistance, normV, FRange.contains, fsqrt, fle, flt]
  constructor
  · exact (c1_nearest_hit (RayM.mk (vq 0 0 0) (vq 0 0 1)) _ _).2.1
      ⟨ObjectM.mk (fun _ => some (Intersection.mk (vq 0 0 1) (vq 0 0 1))) (0 : ℕ),
        List.mem_singleton.mpr rfl,
        Intersection.mk (vq 0 0 1) (vq 0 0 1), rfl, hcont⟩
  · exact hcont

/-! ## Permutation invariance of the nearest hit (C9) -/

theorem pairwise_key_eq {α : Type} {key : α → F32} {l : List α}
    (hp : l.Pairwise fun a b => key a ≠ key b) {x y : α} (hx : x ∈ l) (hy : y ∈ l)
    (hk : key x = key y) : x = y := by
  induction l with
  | nil => simp at hx
  | cons a as ih =>
    rcases List.pairwise_cons.mp hp with ⟨ha, hp'⟩
    rcases List.mem_cons.mp hx with rfl | hx'
    · rcases List.mem_cons.mp hy with rfl | hy'
      · rfl
      · exact absurd hk (ha _ hy')
    · rcases List.mem_cons.mp hy with rfl | hy'
      · exact absurd hk.symm (ha _ hx')
      · exact ih hp' hx' hy'

theorem passing_perm {μ : Type} (ray : RayM) {s1 s2 : SceneM μ} (filter : FRange)
    (hperm : s1.objects.Perm s2.objects) :
    (passing ray s1 filter).Perm (passing ray s2 filter) :=
  ((hperm.filterMap _).map _).filter _

/-- C9 (amended): permuting the scene's object list does not change the
nearest-hit result, provided no two passing candidates lie at exactly the
same distance (ties are broken by list order, so exact ties may select a
different object's material under permutation; see the counterexample). -/
theorem c9_perm_invariant {μ : Type} (ray : RayM) (s1 s2 : SceneM μ) (filter : FRange)
    (hperm : s1.objects.Perm s2.objects)
    (hdist : (passing ray s1 filter).Pairwise fun a b => a.2 ≠ b.2) :
    rayIntersects ray s1 filter = rayIntersects ray s2 filter := by
  have hpp := passing_perm ray filter hperm
  have hnn1 : ∀ y ∈ passing ray s1 filter, y.2.isNan = false :=
    fun y hy => isNan_false_of_contains (passing_shape hy).2.2
  have hnn2 : ∀ y ∈ passing ray s2 filter, y.2.isNan = false :=
    fun y hy => isNan_false_of_contains (passing_shape hy).2.2
  rcases Option.eq_none_or_eq_some
      (minBy (fun a b => distOrd a.2 b.2) (passing ray s1 filter)) with h1 | ⟨x1, h1⟩
  · have he1 : passing ray s1 filter = [] := (minBy_eq_none _ _).mp h1
    have he2 : passing ray s2 filter = [] := by
      have hp := hpp.symm
      rw [he1] at hp
      exact hp.eq_nil
    simp [rayIntersects, he1, he2, minBy]
  · rcases Option.eq_none_or_eq_some
        (minBy (fun a b => distOrd a.2 b.2) (passing ray s2 filter)) with h2 | ⟨x2, h2⟩
    · have he2 : passing ray s2 filter = [] := (minBy_eq_none _ _).mp h2
      have he1 : passing ray s1 filter = [] := by
        have hp := hpp
        rw [he2] at hp
        exact hp.eq_nil
      exact absurd he1 (List.ne_nil_of_mem (minBy_mem h1))
    · have hx1 : x1 ∈ passing ray s1 filter := minBy_mem h1
      have hx2 : x2 ∈ passing ray s2 filter := minBy_mem h2
      have hx2' : x2 ∈ passing ray s1 filter := hpp.symm.subset hx2
      have hm1 := minBy_min (fun md : (Intersection × μ) × F32 => md.2) hnn1 h1
      have hm2 := minBy_min (fun md : (Intersection × μ) × F32 => md.2) hnn2 h2
      have h12 : fle x1.2 x2.2 = true := hm1 x2 hx2'
      have h21 : fle x2.2 x1.2 = true := hm2 x1 (hpp.subset hx1)
      have hkey : x1.2 = x2.2 := fle_antisymm h12 h21
      have : x1 = x2 := pairwise_key_eq hdist hx1 hx2' hkey
      rw [rayIntersects, rayIntersects, h1, h2, this]

/-- Closed instance for C9 (amended): two objects at distinct distances
(1 and 2) give the same nearest hit in either order. -/
theorem c9_perm_invariant_witness :
    rayIntersects (RayM.mk (vq 0 0 0) (vq 0 0 1))
        (SceneM.mk [ObjectM.mk (fun _ => some (Intersection.mk (vq 0 0 1) (vq 0 0 1))) (0 : ℕ),
          ObjectM.mk (fun _ => some (Intersection.mk (vq 0 0 2) (vq 0 0 1))) 1])
        (FRange.mk (F32.val 0) F32.pinf) =
      rayIntersects (RayM.mk (vq 0 0 0) (vq 0 0 1))
        (SceneM.mk [ObjectM.mk (fun _ => some (Intersection.mk (vq 0 0 2) (vq 0 0 1))) (1 : ℕ),
          ObjectM.mk (fun _ => some (Intersection.mk (vq 0 0 1) (vq 0 0 1))) 0])
        (FRange.mk (F32.val 0) F32.pinf) := by
  refine c9_perm_invariant _ _ _ _ (List.Perm.swap _ _ _) ?_
  have h4 : Rat.sqrt 4 = 2 := by
    rw [show (4 : ℚ) = 2 * 2 by norm_num]
    exact ratSqrt_sq (by norm_num)
  norm_num [passing, hitCandidates, hitDistance, List.filterMap_cons,
    List.filterMap_nil, Option.map_some', List.map_cons, List.map_nil,
    List.filter_cons, List.filter_nil, vsub_vq, dotV_vq, normV, FRange.contains,
    fsqrt, fle, flt, h4, ratSqrt_one, List.pairwise_cons]

/-- Counterexample for C9 as stated: two objects reporting the same
intersection (hence the same distance) but carrying different materials;
swapping them changes which material the nearest-hit search returns. -/
theorem c9_counterexample :
    (SceneM.mk [ObjectM.mk (fun _ => some (Intersection.mk (vq 0 0 1) (vq 0 0 1))) (0 : ℕ),
        ObjectM.mk (fun _ => some (Intersection.mk (vq 0 0 1) (vq 0 0 1))) 1]).objects.Perm
      (SceneM.mk [ObjectM.mk (fun _ => some (Intersection.mk (vq 0 0 1) (vq 0 0 1))) (1 : ℕ),
        ObjectM.mk (fun _ => some (Intersection.mk (vq 0 0 1) (vq 0 0 1))) 0]).objects ∧
    rayIntersects (RayM.mk (vq 0 0 0) (vq 0 0 1))
        (SceneM.mk [ObjectM.mk (fun _ => some (Intersection.mk (vq 0 0 1) (vq 0 0 1))) (0 : ℕ),
          ObjectM.mk (fun _ => some (Intersection.mk (vq 0 0 1) (vq 0 0 1))) 1])
        (FRange.mk (F32.val 0) F32.pinf) ≠
      rayIntersects (RayM.mk (vq 0 0 0) (vq 0 0 1))
        (SceneM.mk [ObjectM.mk (fun _ => some (Intersection.mk (vq 0 0 1) (vq 0 0 1))) (1 : ℕ),
          ObjectM.mk (fun _ => some (Intersection.mk (vq 0 0 1) (vq 0 0 1))) 0])
        (FRange.mk (F32.val 0) F32.pinf) := by
  constructor
  · exact List.Perm.swap _ _ _
  · simp only [rayIntersects, passing, hitCandidates, hitDistance, List.filterMap_cons,
      List.filterMap_nil, Option.map_some', List.map_cons, List.map_nil, List.filter_cons,
      List.filter_nil, vsub_vq, dotV_vq, normV, minBy, List.foldl_cons, List.foldl_nil]
    norm_num [FRange.contains, fsqrt, fle, flt, distOrd, pcmp, fcmpCore, isNan]
    simp

/-! ## C8: the PGM serializer -/

/-- Rust's saturating cast never leaves `[0, 255]`. -/
theorem castU8_le (x : F32) : castU8 x ≤ 255 := by
  cases x with
  | nan => simp [castU8]
  | pinf => simp [castU8]
  | ninf => simp [castU8]
  | val q =>
    simp only [castU8]
    by_cases h0 : q ≤ 0
    · simp [h0]
    · by_cases h255 : (255 : ℚ) ≤ q
      · simp [h0, h255]
      · simp only [h0, h255, if_false]
        rw [Int.toNat_le]
        calc ⌊q⌋ ≤ ⌊(255 : ℚ)⌋ := Int.floor_le_floor (le_of_lt (not_le.mp h255))
        _ = (255 : ℤ) := by norm_num

/-- C8: serializing the 1×2 image with pixels `(1, 0.5, 0)` and
`(1.25, -1.25, 0)` at gamma 1 yields exactly the header `P3`, `1 2`, `255`
and the two pixel lines `255 128 0`, `255 0 0`, in image row order; each
channel is gamma-corrected, scaled by 255, rounded, and clamped to
`[0, 255]` by the saturating cast. -/
theorem c8_write_pgm :
    writePgm (ImageM.mk 1 2
        [Pixel.mk (F32.val 1) (F32.val (1 / 2)) (F32.val 0),
         Pixel.mk (F32.val (5 / 4)) (F32.val (-(5 / 4))) (F32.val 0)]) (F32.val 1) =
      ["P3", "1 2", "255", "255 128 0", "255 0 0"] ∧
    ∀ g c : F32, pgmChannel g c ≤ 255 := by
  constructor
  · have h1 : pgmChannel (F32.val 1) (F32.val 1) = 255 := by
      norm_num [pgmChannel, fpowf, frecip, fdiv, froundF, rustRound, castU8]
      try rfl
    have h2 : pgmChannel (F32.val 1) (F32.val (1 / 2)) = 128 := by
      norm_num [pgmChannel, fpowf, frecip, fdiv, froundF, rustRound, castU8]
      try rfl
    have h3 : pgmChannel (F32.val 1) (F32.val 0) = 0 := by
      norm_num [pgmChannel, fpowf, frecip, fdiv, froundF, rustRound, castU8]
      try rfl
    have h4 : pgmChannel (F32.val 1) (F32.val (5 / 4)) = 255 := by
      norm_num [pgmChannel, fpowf, frecip, fdiv, froundF, rustRound, castU8]
      try rfl
    have h5 : pgmChannel (F32.val 1) (F32.val (-(5 / 4))) = 0 := by
      norm_num [pgmChannel, fpowf, frecip, fdiv, froundF, rustRound, castU8]
      try rfl
    have hrows : (ImageM.mk 1 2
        [Pixel.mk (F32.val 1) (F32.val (1 / 2)) (F32.val 0),
         Pixel.mk (F32.val (5 / 4)) (F32.val (-(5 / 4))) (F32.val 0)]).rows =
        [[Pixel.mk (F32.val 1) (F32.val (1 / 2)) (F32.val 0)],
         [Pixel.mk (F32.val (5 / 4)) (F32.val (-(5 / 4))) (F32.val 0)]] := rfl
    simp only [writePgm, hrows, List.map_cons, List.map_nil, List.flatten_cons,
      List.flatten_nil, pixelLine, h1, h2, h3, h4, h5, List.nil_append, List.append_nil]
    decide
  · intro g c
    exact castU8_le _

/-! ## C2: the recursive integrator -/

theorem paddP_black (a : Pixel) : paddP a Pixel.black = a := by
  cases a
  simp [paddP, Pixel.black, fadd_zero]

theorem black_paddP (a : Pixel) : paddP Pixel.black a = a := by
  cases a
  simp [paddP, Pixel.black, zero_fadd]

theorem paddP_assoc (a b c : Pixel) : paddP (paddP a b) c = paddP a (paddP b c) := by
  cases a
  cases b
  cases c
  simp [paddP, fadd_assoc]

/-- Mathematical sum of a list of pixels (right fold), as in the spec's
"multiply, sum, then divide" description of the integrator. -/
def pixelSum (l : List Pixel) : Pixel := l.foldr paddP Pixel.black

theorem foldl_paddP (l : List Pixel) (a : Pixel) :
    l.foldl paddP a = paddP a (pixelSum l) := by
  induction l generalizing a with
  | nil => simp [pixelSum, paddP_black]
  | cons b bs ih =>
    simp only [List.foldl_cons, pixelSum, List.foldr_cons]
    rw [ih, paddP_assoc]
    rfl

theorem foldl_paddP_black (l : List Pixel) :
    l.foldl paddP Pixel.black = pixelSum l := by
  rw [foldl_paddP, black_paddP]

/-- Linear interpolation between two pixels with parameter `t`, the spec's
description of the background gradient. -/
def lerpPixel (t : F32) (a b : Pixel) : Pixel :=
  ⟨fadd (fmul (fsub (F32.val 1) t) a.r) (fmul t b.r),
   fadd (fmul (fsub (F32.val 1) t) a.g) (fmul t b.g),
   fadd (fmul (fsub (F32.val 1) t) a.b) (fmul t b.b)⟩

/-- Unfolding equation for `render_ray` at positive depth. -/
theorem renderRay_succ (scene : SceneM MaterialFn) (depth : ℕ) (ray : RayM) :
    renderRay scene (depth + 1) ray =
      match rayIntersects ray scene ⟨F32.val (1 / 1000), F32.pinf⟩ with
      | some im =>
        let scatters := im.2 ray im.1
        let acc := (scatters.map fun rc =>
          pmulP (renderRay scene depth rc.1) rc.2).foldl paddP Pixel.black
        if scatters.isEmpty then Pixel.black
        else pdivS acc (F32.val (scatters.length : ℚ))
      | none =>
        let t := fmul (F32.val (1 / 2)) (fadd ray.direction.y (F32.val 1))
        ⟨fadd (fmul (fsub (F32.val 1) t) (F32.val 1)) (fmul t (F32.val (1 / 2))),
         fadd (fmul (fsub (F32.val 1) t) (F32.val 1)) (fmul t (F32.val (7 / 10))),
         fadd (fmul (fsub (F32.val 1) t) (F32.val 1)) (fmul t (F32.val 1))⟩ := rfl

/-- C2: `render_ray` returns black at depth 0; at positive depth, on a hit
it scatters, attenuates each recursive result componentwise, sums them and
divides by the pair count (black when the material returns zero pairs);
with no hit it returns the background gradient, a linear interpolation with
parameter `t = 0.5 * (direction.y + 1)` between white and the sky color. -/
theorem c2_render_ray (scene : SceneM MaterialFn) (ray : RayM) (depth : ℕ) :
    renderRay scene 0 ray = Pixel.black ∧
    (∀ i mat,
      rayIntersects ray scene (FRange.mk (F32.val (1 / 1000)) F32.pinf) = some (i, mat) →
      renderRay scene (depth + 1) ray =
        if (mat ray i).length = 0 then Pixel.black
        else pdivS (pixelSum ((mat ray i).map fun rc => pmulP (renderRay scene depth rc.1) rc.2))
          (F32.val ((mat ray i).length : ℚ))) ∧
    (rayIntersects ray scene (FRange.mk (F32.val (1 / 1000)) F32.pinf) = none →
      renderRay scene (depth + 1) ray =
        lerpPixel (fmul (F32.val (1 / 2)) (fadd ray.direction.y (F32.val 1)))
          (Pixel.mk (F32.val 1) (F32.val 1) (F32.val 1))
          (Pixel.mk (F32.val (1 / 2)) (F32.val (7 / 10)) (F32.val 1))) := by
  refine ⟨rfl, ?_, ?_⟩
  · intro i mat h
    rw [renderRay_succ, h]
    simp only [foldl_paddP_black, List.isEmpty_iff_length_eq_zero]
  · intro h
    rw [renderRay_succ, h]
    rfl

/-- Closed instance for C2: a fully absorbing one-object scene renders
black, and the empty scene renders the background gradient. -/
theorem c2_render_ray_witness :
    renderRay (SceneM.mk [ObjectM.mk
        (fun _ => some (Intersection.mk (vq 0 0 1) (vq 0 0 1)))
        ((fun _ _ => []) : MaterialFn)]) 1 (RayM.mk (vq 0 0 0) (vq 0 0 1))
      = Pixel.black ∧
    renderRay (SceneM.mk ([] : List (ObjectM MaterialFn))) 1 (RayM.mk (vq 0 0 0) (vq 0 0 1))
      = lerpPixel (fmul (F32.val (1 / 2)) (fadd (F32.val 0) (F32.val 1)))
          (Pixel.mk (F32.val 1) (F32.val 1) (F32.val 1))
          (Pixel.mk (F32.val (1 / 2)) (F32.val (7 / 10)) (F32.val 1)) := by
  constructor
  · have hsome : rayIntersects (RayM.mk (vq 0 0 0) (vq 0 0 1))
        (SceneM.mk [ObjectM.mk (fun _ => some (Intersection.mk (vq 0 0 1) (vq 0 0 1)))
          ((fun _ _ => []) : MaterialFn)])
        (FRange.mk (F32.val (1 / 1000)) F32.pinf) =
        some (Intersection.mk (vq 0 0 1) (vq 0 0 1),
          ((fun _ _ => []) : MaterialFn)) := by
      simp only [rayIntersects, passing, hitCandidates, hitDistance, List.filterMap_cons,
        List.filterMap_nil, Option.map_some', List.map_cons, List.map_nil, List.filter_cons,
        List.filter_nil, vsub_vq, dotV_vq, normV, minBy, List.foldl_nil]
      norm_num [FRange.contains, fsqrt, fle, flt]
    rw [(c2_render_ray _ _ 0).2.1 _ _ hsome]
    simp
  · exact (c2_render_ray _ _ 0).2.2 rfl

/-! ## C3, C4: sphere intersection -/

/-- Roots of `A·t² + 2B·t + C` when the discriminant `B² - A·C` has the
exact square root `s`. -/
theorem quad_roots {A B C s : ℚ} (hA : A ≠ 0) (hs : s * s = B * B - A * C) (t : ℚ) :
    A * t ^ 2 + 2 * B * t + C = 0 ↔ t = (-B - s) / A ∨ t = (-B + s) / A := by
  have key : (A * t + B + s) * (A * t + B - s) = A * (A * t ^ 2 + 2 * B * t + C) := by
    linear_combination -hs
  constructor
  · intro h
    rw [h, mul_zero] at key
    rcases mul_eq_zero.mp key with h1 | h1
    · left
      field_simp
      linarith
    · right
      field_simp
      linarith
  · intro h
    have h2 : A * t + B + s = 0 ∨ A * t + B - s = 0 := by
      rcases h with rfl | rfl
      · left
        field_simp
        try ring
      · right
        field_simp
        try ring
    have h3 : (A * t + B + s) * (A * t + B - s) = 0 := by
      rcases h2 with h2 | h2 <;> rw [h2] <;> ring
    rw [h3] at key
    rcases mul_eq_zero.mp key.symm with h4 | h4
    · exact absurd h4 hA
    · exact h4

/-- A sum of three squares is positive unless all entries are zero. -/
theorem sq_sum_pos {a b c : ℚ} (h : ¬(a = 0 ∧ b = 0 ∧ c = 0)) :
    0 < a * a + b * b + c * c := by
  by_contra h0
  push_neg at h0
  have ha : a * a = 0 := le_antisymm
    (by nlinarith [mul_self_nonneg b, mul_self_nonneg c]) (mul_self_nonneg a)
  have hb : b * b = 0 := le_antisymm
    (by nlinarith [mul_self_nonneg a, mul_self_nonneg c]) (mul_self_nonneg b)
  have hc : c * c = 0 := le_antisymm
    (by nlinarith [mul_self_nonneg a, mul_self_nonneg b]) (mul_self_nonneg c)
  exact h ⟨mul_self_eq_zero.mp ha, mul_self_eq_zero.mp hb, mul_self_eq_zero.mp hc⟩

/-- C3: with ray origin `C + u` (offset `u` from the sphere center), unit or
non-degenerate direction `D`, and a discriminant that is an exact square,
`Sphere::intersected_by` returns exactly the intersections built from the
roots `t` of `(D·D)·t² + 2(u·D)·t + (u·u - r²) = 0` that pass the distance
filter, with hit point `ray.at t` and normal `(point - center) / radius`
normalized; and dividing the un-normalized normal by `-r` instead of `r`
yields exactly the negated normal (a negative radius flips orientation). -/
theorem c3_sphere_roots (ux uy uz dx dy dz cx cy cz r : ℚ) (filter : FRange)
    (ha : dx * dx + dy * dy + dz * dz ≠ 0)
    (hs : Rat.sqrt ((ux * dx + uy * dy + uz * dz) * (ux * dx + uy * dy + uz * dz) -
          (dx * dx + dy * dy + dz * dz) * (ux * ux + uy * uy + uz * uz - r * r)) *
        Rat.sqrt ((ux * dx + uy * dy + uz * dz) * (ux * dx + uy * dy + uz * dz) -
          (dx * dx + dy * dy + dz * dz) * (ux * ux + uy * uy + uz * uz - r * r)) =
        (ux * dx + uy * dy + uz * dz) * (ux * dx + uy * dy + uz * dz) -
          (dx * dx + dy * dy + dz * dz) * (ux * ux + uy * uy + uz * uz - r * r)) :
    (∀ i, i ∈ Sphere.intersectedBy ⟨vq cx cy cz, F32.val r⟩
        ⟨vq (cx + ux) (cy + uy) (cz + uz), vq dx dy dz⟩ filter ↔
      ∃ t : ℚ, (dx * dx + dy * dy + dz * dz) * t ^ 2 +
          2 * (ux * dx + uy * dy + uz * dz) * t +
          (ux * ux + uy * uy + uz * uz - r * r) = 0 ∧
        filter.contains (F32.val t) = true ∧
        i = Intersection.new
          (RayM.at ⟨vq (cx + ux) (cy + uy) (cz + uz), vq dx dy dz⟩ (F32.val t))
          (vdivS (vsub (RayM.at ⟨vq (cx + ux) (cy + uy) (cz + uz), vq dx dy dz⟩ (F32.val t))
            (vq cx cy cz)) (F32.val r))) ∧
    (∀ wx wy wz rr : ℚ, ¬(wx = 0 ∧ wy = 0 ∧ wz = 0) → rr ≠ 0 →
      normalizeV (vdivS (vq wx wy wz) (F32.val (-rr))) =
        vneg (normalizeV (vdivS (vq wx wy wz) (F32.val rr)))) := by
  constructor
  · intro i
    have hox : cx + ux - cx = ux := by ring
    have hoy : cy + uy - cy = uy := by ring
    have hoz : cz + uz - cz = uz := by ring
    have hsq : (0 : ℚ) ≤ (ux * dx + uy * dy + uz * dz) * (ux * dx + uy * dy + uz * dz) -
        (dx * dx + dy * dy + dz * dz) * (ux * ux + uy * uy + uz * uz - r * r) :=
      hs ▸ mul_self_nonneg _
    simp only [Sphere.intersectedBy, vsub_vq, dotV_vq, fmul_val, fsub_val, fadd_val,
      fneg_val, hox, hoy, hoz, fsqrt_val hsq, fdiv_val _ ha, List.mem_map,
      List.mem_filter, List.mem_cons, List.not_mem_nil, or_false]
    constructor
    · rintro ⟨d, ⟨hd12, hpd⟩, rfl⟩
      rcases hd12 with rfl | rfl
      · exact ⟨_, (quad_roots ha hs _).mpr (Or.inl rfl), hpd, rfl⟩
      · exact ⟨_, (quad_roots ha hs _).mpr (Or.inr rfl), hpd, rfl⟩
    · rintro ⟨t, hroot, hcont, rfl⟩
      rcases (quad_roots ha hs t).mp hroot with rfl | rfl
      · exact ⟨_, ⟨Or.inl rfl, hcont⟩, rfl⟩
      · exact ⟨_, ⟨Or.inr rfl, hcont⟩, rfl⟩
  · intro wx wy wz rr hw hr
    have hri : (rr : ℚ)⁻¹ ≠ 0 := inv_ne_zero hr
    have hrni : (-rr : ℚ)⁻¹ ≠ 0 := inv_ne_zero (neg_ne_zero.mpr hr)
    have hSeq : wx * (-rr)⁻¹ * (wx * (-rr)⁻¹) + wy * (-rr)⁻¹ * (wy * (-rr)⁻¹) +
        wz * (-rr)⁻¹ * (wz * (-rr)⁻¹) =
        wx * rr⁻¹ * (wx * rr⁻¹) + wy * rr⁻¹ * (wy * rr⁻¹) + wz * rr⁻¹ * (wz * rr⁻¹) := by
      field_simp
    have hS : (0 : ℚ) < wx * rr⁻¹ * (wx * rr⁻¹) + wy * rr⁻¹ * (wy * rr⁻¹) +
        wz * rr⁻¹ * (wz * rr⁻¹) := by
      have hsum := sq_sum_pos hw
      have h2 : wx * rr⁻¹ * (wx * rr⁻¹) + wy * rr⁻¹ * (wy * rr⁻¹) +
          wz * rr⁻¹ * (wz * rr⁻¹) = (wx * wx + wy * wy + wz * wz) * (rr⁻¹ * rr⁻¹) := by
        ring
      rw [h2]
      exact mul_pos hsum (mul_self_pos.mpr hri)
    have hSnn : (0 : ℚ) ≤ wx * rr⁻¹ * (wx * rr⁻¹) + wy * rr⁻¹ * (wy * rr⁻¹) +
        wz * rr⁻¹ * (wz * rr⁻¹) := le_of_lt hS
    have hsne : Rat.sqrt (wx * rr⁻¹ * (wx * rr⁻¹) + wy * rr⁻¹ * (wy * rr⁻¹) +
        wz * rr⁻¹ * (wz * rr⁻¹)) ≠ 0 := ne_of_gt (ratSqrt_pos hS)
    simp only [vdivS, frecip_val (neg_ne_zero.mpr hr), frecip_val hr, vscale_vq,
      normalizeV, normV, dotV_vq, hSeq, fsqrt_val hSnn, frecip_val hsne, vneg_vq]
    congr 1 <;> ring

/-- Closed instance for C3: the two-root configuration from the source's
tests (sphere at `(0,0,2)`, radius 1, ray from the origin along `z`), at the
root `t = 1`, plus the orientation flip at a concrete normal. -/
theorem c3_sphere_roots_witness :
    Intersection.new
        (RayM.at ⟨vq (0 + 0) (0 + 0) (2 + -2), vq 0 0 1⟩ (F32.val 1))
        (vdivS (vsub (RayM.at ⟨vq (0 + 0) (0 + 0) (2 + -2), vq 0 0 1⟩ (F32.val 1))
          (vq 0 0 2)) (F32.val 1)) ∈
      Sphere.intersectedBy ⟨vq 0 0 2, F32.val 1⟩
        ⟨vq (0 + 0) (0 + 0) (2 + -2), vq 0 0 1⟩ (FRange.mk (F32.val 0) F32.pinf) ∧
    normalizeV (vdivS (vq 1 0 0) (F32.val (-1))) =
      vneg (normalizeV (vdivS (vq 1 0 0) (F32.val 1))) :=
  ⟨((c3_sphere_roots 0 0 (-2) 0 0 1 0 0 2 1 (FRange.mk (F32.val 0) F32.pinf)
      (by norm_num) (by norm_num)).1 _).mpr
    ⟨1, by norm_num, by norm_num [FRange.contains, fle, flt], rfl⟩,
   (c3_sphere_roots 0 0 (-2) 0 0 1 0 0 2 1 (FRange.mk (F32.val 0) F32.pinf)
      (by norm_num) (by norm_num)).2 1 0 0 1 (by norm_num) one_ne_zero⟩

/-- C4 (amended): a sphere yields at most two intersections for any inputs,
and a tangent ray — zero discriminant, double root inside the filter
range — yields exactly two (identical) intersections, not one. -/
theorem c4_intersection_count :
    (∀ (s : Sphere) (ray : RayM) (filter : FRange),
      (s.intersectedBy ray filter).length ≤ 2) ∧
    (∀ ux uy uz dx dy dz cx cy cz r : ℚ, ∀ filter : FRange,
      dx * dx + dy * dy + dz * dz ≠ 0 →
      (ux * dx + uy * dy + uz * dz) * (ux * dx + uy * dy + uz * dz) -
        (dx * dx + dy * dy + dz * dz) * (ux * ux + uy * uy + uz * uz - r * r) = 0 →
      filter.contains (F32.val (-(ux * dx + uy * dy + uz * dz) /
        (dx * dx + dy * dy + dz * dz))) = true →
      ∃ j, Sphere.intersectedBy ⟨vq cx cy cz, F32.val r⟩
        ⟨vq (cx + ux) (cy + uy) (cz + uz), vq dx dy dz⟩ filter = [j, j]) := by
  constructor
  · intro s ray filter
    simp only [Sphere.intersectedBy, List.length_map]
    exact le_trans (List.length_filter_le _ _) (by simp)
  · intro ux uy uz dx dy dz cx cy cz r filter ha hdisc hcont
    have hox : cx + ux - cx = ux := by ring
    have hoy : cy + uy - cy = uy := by ring
    have hoz : cz + uz - cz = uz := by ring
    have e1 : (-(ux * dx + uy * dy + uz * dz) - (0 : ℚ)) / (dx * dx + dy * dy + dz * dz) =
        -(ux * dx + uy * dy + uz * dz) / (dx * dx + dy * dy + dz * dz) := by ring
    have e2 : (-(ux * dx + uy * dy + uz * dz) + (0 : ℚ)) / (dx * dx + dy * dy + dz * dz) =
        -(ux * dx + uy * dy + uz * dz) / (dx * dx + dy * dy + dz * dz) := by ring
    simp only [Sphere.intersectedBy, vsub_vq, dotV_vq, fmul_val, fsub_val, fadd_val,
      fneg_val, hox, hoy, hoz, hdisc, fsqrt_val (le_refl (0 : ℚ)), ratSqrt_zero,
      fdiv_val _ ha, e1, e2, List.filter_cons, List.filter_nil, hcont, if_true,
      List.map_cons, List.map_nil]
    exact ⟨_, rfl⟩

/-- Closed instance for C4 (amended): the tangent configuration from the
source's test, via the amended theorem. -/
theorem c4_intersection_count_witness :
    ∃ j, Sphere.intersectedBy ⟨vq 0 0 2, F32.val 1⟩
      ⟨vq (0 + 1) (0 + 0) (2 + -2), vq 0 0 1⟩
      (FRange.mk (F32.val 0) F32.pinf) = [j, j] :=
  c4_intersection_count.2 1 0 (-2) 0 0 1 0 0 2 1 (FRange.mk (F32.val 0) F32.pinf)
    (by norm_num) (by norm_num) (by norm_num [FRange.contains, fle, flt])

/-- Counterexample for C4 as stated: the source's own tangent-ray test case
(sphere at `(0,0,2)` radius 1, ray from `(1,0,0)` along `z`) produces two
identical intersections, not one. -/
theorem c4_counterexample :
    (Sphere.intersectedBy ⟨vq 0 0 2, F32.val 1⟩ ⟨vq 1 0 0, vq 0 0 1⟩
      (FRange.mk (F32.val 0) F32.pinf)).length = 2 ∧
    Sphere.intersectedBy ⟨vq 0 0 2, F32.val 1⟩ ⟨vq 1 0 0, vq 0 0 1⟩
      (FRange.mk (F32.val 0) F32.pinf) =
      [Intersection.new (vq 1 0 2) (vq 1 0 0), Intersection.new (vq 1 0 2) (vq 1 0 0)] := by
  have h : Sphere.intersectedBy ⟨vq 0 0 2, F32.val 1⟩ ⟨vq 1 0 0, vq 0 0 1⟩
      (FRange.mk (F32.val 0) F32.pinf) =
      [Intersection.new (vq 1 0 2) (vq 1 0 0), Intersection.new (vq 1 0 2) (vq 1 0 0)] := by
    norm_num [Sphere.intersectedBy, fsqrt, fdiv, FRange.contains, fle, flt, RayM.at,
      vadd, vscale, vsub, fmul, fadd, fneg, fsub, vq, dotV, Intersection.new, vdivS, frecip]
  exact ⟨by rw [h]; rfl, h⟩

/-! ## C10: scattered rays originate at the intersection point -/

/-- C10: every (ray, attenuation) pair produced by any of the four
materials' `scatter_at` has the scattered ray's origin equal to the
intersection point it was scattered at. -/
theorem c10_scatter_origin :
    (∀ (m : Lambertian) (g : V3) (i : Intersection),
      (m.scatterAt g i).1.origin = i.point) ∧
    (∀ (m : Hemispherical) (g : V3) (i : Intersection),
      (m.scatterAt g i).1.origin = i.point) ∧
    (∀ (m : Metal) (d0 d1 : ℚ) (ray : RayM) (i : Intersection),
      ∀ rc ∈ m.scatterAt d0 d1 ray i, rc.1.origin = i.point) ∧
    (∀ (m : Dielectric) (p : ℚ) (ray : RayM) (i : Intersection),
      ∀ rc ∈ m.scatterAt p ray i, rc.1.origin = i.point) := by
  refine ⟨fun m g i => rfl, fun m g i => ?_, fun m d0 d1 ray i rc hrc => ?_,
    fun m p ray i rc hrc => ?_⟩
  · simp only [Hemispherical.scatterAt]
    split <;> rfl
  · simp only [Metal.scatterAt] at hrc
    split at hrc
    · rw [List.mem_singleton.mp hrc]
      rfl
    · simp at hrc
  · simp only [Dielectric.scatterAt, List.mem_singleton] at hrc
    rw [hrc]
    rfl

/-- Closed instance for C10: the Metal and Dielectric clauses applied to the
single pair each returns at a normal-incidence configuration. -/
theorem c10_scatter_origin_witness :
    ((RayM.new (vq 0 0 0) (vadd
        (vsub (vq 0 0 (-1)) (vscale (vq 0 0 1) (fmul (F32.val 2)
          (dotV (vq 0 0 (-1)) (vq 0 0 1)))))
        (randPointOnDisk 0 0
          (vsub (vq 0 0 (-1)) (vscale (vq 0 0 1) (fmul (F32.val 2)
            (dotV (vq 0 0 (-1)) (vq 0 0 1))))) (F32.val 0)))),
       Pixel.black).1.origin = (Intersection.mk (vq 0 0 0) (vq 0 0 1)).point ∧
    ((RayM.new (vq 0 0 0) (refract (vq 0 0 (-1)) (vq 0 0 1)
        (frecip (F32.val (3 / 2))) 0)), Pixel.black).1.origin =
      (Intersection.mk (vq 0 0 0) (vq 0 0 1)).point := by
  constructor
  · apply c10_scatter_origin.2.2.1 (Metal.mk Pixel.black (F32.val 0)) 0 0
      (RayM.mk (vq 0 0 3) (vq 0 0 (-1))) (Intersection.mk (vq 0 0 0) (vq 0 0 1))
    norm_num [Metal.scatterAt, randPointOnDisk, projV, normalizeV, normV, vdivS,
      frecip, fdiv, fsqrt, fgt, flt, fle, RayM.new, crossV, vadd, vsub, vscale, vq,
      dotV, fmul, fadd, fsub, fneg]
  · apply c10_scatter_origin.2.2.2 (Dielectric.mk Pixel.black (F32.val (3 / 2))) 0
      (RayM.mk (vq 0 0 3) (vq 0 0 (-1))) (Intersection.mk (vq 0 0 0) (vq 0 0 1))
    simp [Dielectric.scatterAt]

/-! ## C5: diffuse-material scatter directions -/

/-- If a finite direction has positive (unnormalized) dot product with a
finite vector and positive squared norm, the normalized direction also has
positive dot product: `Ray::new`'s normalization divides by the positive
square root of the squared norm. -/
theorem dot_normalize_pos {a b c nx ny nz : ℚ}
    (hpos : 0 < a * nx + b * ny + c * nz)
    (hT : 0 < a * a + b * b + c * c) :
    fgt (dotV (normalizeV (vq a b c)) (vq nx ny nz)) (F32.val 0) = true := by
  have hτ : 0 < Rat.sqrt (a * a + b * b + c * c) := ratSqrt_pos hT
  have hτne : Rat.sqrt (a * a + b * b + c * c) ≠ 0 := ne_of_gt hτ
  simp only [normalizeV, normV, vdivS, dotV_vq, fsqrt_val (le_of_lt hT),
    frecip_val hτne, vscale_vq, fgt_val, decide_eq_true_eq]
  have heq : a * (Rat.sqrt (a * a + b * b + c * c))⁻¹ * nx +
      b * (Rat.sqrt (a * a + b * b + c * c))⁻¹ * ny +
      c * (Rat.sqrt (a * a + b * b + c * c))⁻¹ * nz =
      (a * nx + b * ny + c * nz) * (Rat.sqrt (a * a + b * b + c * c))⁻¹ := by
    ring
  rw [heq]
  exact mul_pos hpos (inv_pos.mpr hτ)

/-- Counterexample for C5 as stated: when the random unit offset is exactly
the negated normal, this revision of `Lambertian::scatter_at` has no
fallback — it builds a zero direction whose normalization is all-NaN, so
the scattered direction's dot with the normal is not positive, and the
direction is not the normal. -/
theorem c5_counterexample :
    fgt (dotV ((Lambertian.mk Pixel.black).scatterAt (vq 0 0 (-1))
        (Intersection.mk (vq 0 0 0) (vq 0 0 1))).1.direction
      (Intersection.mk (vq 0 0 0) (vq 0 0 1)).normal) (F32.val 0) = false ∧
    ((Lambertian.mk Pixel.black).scatterAt (vq 0 0 (-1))
        (Intersection.mk (vq 0 0 0) (vq 0 0 1))).1.direction ≠
      (Intersection.mk (vq 0 0 0) (vq 0 0 1)).normal := by
  constructor <;>
    norm_num [Lambertian.scatterAt, randPointOnSphere, RayM.new, normalizeV, normV,
      vdivS, frecip, fdiv, fsqrt, fgt, flt, vadd, vsub, vscale, vq, dotV, fmul, fadd,
      fsub, fneg]
  intro h
  exact F32.noConfusion h

/-- C5 (amended): for every non-degenerate draw, Lambertian and
Hemispherical scattered directions have strictly positive dot product with
the intersection normal — Lambertian whenever the random offset is not
exactly the negated normal (`g·n ≠ -‖g‖`), Hemispherical whenever the
offset is not orthogonal to the normal; this revision has no degenerate
fallback (see the counterexample).  Stated for draws whose norm is exactly
representable, since the model's square root is exact on perfect squares. -/
theorem c5_diffuse_scatter (att : Pixel) (px py pz nx ny nz gx gy gz : ℚ)
    (hn : nx * nx + ny * ny + nz * nz = 1)
    (hgs : Rat.sqrt (gx * gx + gy * gy + gz * gz) *
      Rat.sqrt (gx * gx + gy * gy + gz * gz) = gx * gx + gy * gy + gz * gz)
    (hgnz : gx * gx + gy * gy + gz * gz ≠ 0) :
    (gx * nx + gy * ny + gz * nz ≠ -Rat.sqrt (gx * gx + gy * gy + gz * gz) →
      fgt (dotV ((Lambertian.mk att).scatterAt (vq gx gy gz)
          (Intersection.mk (vq px py pz) (vq nx ny nz))).1.direction
        (vq nx ny nz)) (F32.val 0) = true) ∧
    (gx * nx + gy * ny + gz * nz ≠ 0 →
      fgt (dotV ((Hemispherical.mk att).scatterAt (vq gx gy gz)
          (Intersection.mk (vq px py pz) (vq nx ny nz))).1.direction
        (vq nx ny nz)) (F32.val 0) = true) := by
  have hSnn : (0 : ℚ) ≤ gx * gx + gy * gy + gz * gz := by
    nlinarith [mul_self_nonneg gx, mul_self_nonneg gy, mul_self_nonneg gz]
  have hSpos : (0 : ℚ) < gx * gx + gy * gy + gz * gz := lt_of_le_of_ne hSnn (Ne.symm hgnz)
  have hσpos : 0 < Rat.sqrt (gx * gx + gy * gy + gz * gz) := ratSqrt_pos hSpos
  have hσne : Rat.sqrt (gx * gx + gy * gy + gz * gz) ≠ 0 := ne_of_gt hσpos
  have hinv : (0 : ℚ) < 1 / Rat.sqrt (gx * gx + gy * gy + gz * gz) :=
    one_div_pos.mpr hσpos
  have hifne : ¬(F32.val (Rat.sqrt (gx * gx + gy * gy + gz * gz)) = F32.val 0) := by
    simp [hσne]
  have hS1 : (gx * gx + gy * gy + gz * gz) *
      ((1 / Rat.sqrt (gx * gx + gy * gy + gz * gz)) *
       (1 / Rat.sqrt (gx * gx + gy * gy + gz * gz))) = 1 := by
    field_simp
    linarith [hgs]
  constructor
  · intro hne
    have hdir : ((Lambertian.mk att).scatterAt (vq gx gy gz)
        (Intersection.mk (vq px py pz) (vq nx ny nz))).1.direction =
        normalizeV (vq
          (px + nx + gx * (1 / Rat.sqrt (gx * gx + gy * gy + gz * gz)) - px)
          (py + ny + gy * (1 / Rat.sqrt (gx * gx + gy * gy + gz * gz)) - py)
          (pz + nz + gz * (1 / Rat.sqrt (gx * gx + gy * gy + gz * gz)) - pz)) := by
      simp only [Lambertian.scatterAt, randPointOnSphere, normV, dotV_vq,
        fsqrt_val hSnn, if_neg hifne, fdiv_val 1 hσne, vadd_vq, vscale_vq, vsub_vq,
        RayM.new]
    have hd2 : (gx * nx + gy * ny + gz * nz) ^ 2 ≤ gx * gx + gy * gy + gz * gz := by
      nlinarith [sq_nonneg (gx * ny - gy * nx), sq_nonneg (gx * nz - gz * nx),
        sq_nonneg (gy * nz - gz * ny), hn]
    have hge : -Rat.sqrt (gx * gx + gy * gy + gz * gz) ≤ gx * nx + gy * ny + gz * nz := by
      nlinarith [hd2, hgs, hσpos]
    have hgt : -Rat.sqrt (gx * gx + gy * gy + gz * gz) < gx * nx + gy * ny + gz * nz :=
      lt_of_le_of_ne hge fun h => hne h.symm
    have hbound : -(1 : ℚ) < (gx * nx + gy * ny + gz * nz) *
        (1 / Rat.sqrt (gx * gx + gy * gy + gz * gz)) := by
      have h0 : (-1 : ℚ) = -Rat.sqrt (gx * gx + gy * gy + gz * gz) *
          (1 / Rat.sqrt (gx * gx + gy * gy + gz * gz)) := by
        field_simp
      rw [h0]
      exact mul_lt_mul_of_pos_right hgt hinv
    rw [hdir]
    apply dot_normalize_pos
    · have hkey : (px + nx + gx * (1 / Rat.sqrt (gx * gx + gy * gy + gz * gz)) - px) * nx +
          (py + ny + gy * (1 / Rat.sqrt (gx * gx + gy * gy + gz * gz)) - py) * ny +
          (pz + nz + gz * (1 / Rat.sqrt (gx * gx + gy * gy + gz * gz)) - pz) * nz =
          nx * nx + ny * ny + nz * nz + (gx * nx + gy * ny + gz * nz) *
            (1 / Rat.sqrt (gx * gx + gy * gy + gz * gz)) := by
        ring
      rw [hkey, hn]
      linarith
    · have hkeyT : (px + nx + gx * (1 / Rat.sqrt (gx * gx + gy * gy + gz * gz)) - px) *
          (px + nx + gx * (1 / Rat.sqrt (gx * gx + gy * gy + gz * gz)) - px) +
          (py + ny + gy * (1 / Rat.sqrt (gx * gx + gy * gy + gz * gz)) - py) *
          (py + ny + gy * (1 / Rat.sqrt (gx * gx + gy * gy + gz * gz)) - py) +
          (pz + nz + gz * (1 / Rat.sqrt (gx * gx + gy * gy + gz * gz)) - pz) *
          (pz + nz + gz * (1 / Rat.sqrt (gx * gx + gy * gy + gz * gz)) - pz) =
          nx * nx + ny * ny + nz * nz +
          2 * ((gx * nx + gy * ny + gz * nz) *
            (1 / Rat.sqrt (gx * gx + gy * gy + gz * gz))) +
          (gx * gx + gy * gy + gz * gz) *
            ((1 / Rat.sqrt (gx * gx + gy * gy + gz * gz)) *
             (1 / Rat.sqrt (gx * gx + gy * gy + gz * gz))) := by
        ring
      rw [hkeyT, hn, hS1]
      linarith
  · intro hdot
    have hE : (px + gx * (1 / Rat.sqrt (gx * gx + gy * gy + gz * gz)) - px) * nx +
        (py + gy * (1 / Rat.sqrt (gx * gx + gy * gy + gz * gz)) - py) * ny +
        (pz + gz * (1 / Rat.sqrt (gx * gx + gy * gy + gz * gz)) - pz) * nz =
        (gx * nx + gy * ny + gz * nz) *
          (1 / Rat.sqrt (gx * gx + gy * gy + gz * gz)) := by
      ring
    have hT : (px + gx * (1 / Rat.sqrt (gx * gx + gy * gy + gz * gz)) - px) *
        (px + gx * (1 / Rat.sqrt (gx * gx + gy * gy + gz * gz)) - px) +
        (py + gy * (1 / Rat.sqrt (gx * gx + gy * gy + gz * gz)) - py) *
        (py + gy * (1 / Rat.sqrt (gx * gx + gy * gy + gz * gz)) - py) +
        (pz + gz * (1 / Rat.sqrt (gx * gx + gy * gy + gz * gz)) - pz) *
        (pz + gz * (1 / Rat.sqrt (gx * gx + gy * gy + gz * gz)) - pz) = 1 := by
      have h1 : (px + gx * (1 / Rat.sqrt (gx * gx + gy * gy + gz * gz)) - px) *
          (px + gx * (1 / Rat.sqrt (gx * gx + gy * gy + gz * gz)) - px) +
          (py + gy * (1 / Rat.sqrt (gx * gx + gy * gy + gz * gz)) - py) *
          (py + gy * (1 / Rat.sqrt (gx * gx + gy * gy + gz * gz)) - py) +
          (pz + gz * (1 / Rat.sqrt (gx * gx + gy * gy + gz * gz)) - pz) *
          (pz + gz * (1 / Rat.sqrt (gx * gx + gy * gy + gz * gz)) - pz) =
          (gx * gx + gy * gy + gz * gz) *
          ((1 / Rat.sqrt (gx * gx + gy * gy + gz * gz)) *
           (1 / Rat.sqrt (gx * gx + gy * gy + gz * gz))) := by
        ring
      rw [h1]
      exact hS1
    by_cases hb : 0 < gx * nx + gy * ny + gz * nz
    · have hposX : 0 < (px + gx * (1 / Rat.sqrt (gx * gx + gy * gy + gz * gz)) - px) * nx +
          (py + gy * (1 / Rat.sqrt (gx * gx + gy * gy + gz * gz)) - py) * ny +
          (pz + gz * (1 / Rat.sqrt (gx * gx + gy * gy + gz * gz)) - pz) * nz := by
        rw [hE]
        exact mul_pos hb hinv
      have hdir : ((Hemispherical.mk att).scatterAt (vq gx gy gz)
          (Intersection.mk (vq px py pz) (vq nx ny nz))).1.direction =
          normalizeV (vq
            (px + gx * (1 / Rat.sqrt (gx * gx + gy * gy + gz * gz)) - px)
            (py + gy * (1 / Rat.sqrt (gx * gx + gy * gy + gz * gz)) - py)
            (pz + gz * (1 / Rat.sqrt (gx * gx + gy * gy + gz * gz)) - pz)) := by
        simp only [Hemispherical.scatterAt, randPointOnSphere, normV, dotV_vq,
          fsqrt_val hSnn, if_neg hifne, fdiv_val 1 hσne, vadd_vq, vscale_vq, vsub_vq,
          fgt_val, decide_eq_true_eq, hposX, if_true, RayM.new]
      rw [hdir]
      apply dot_normalize_pos
      · rw [hE]
        exact mul_pos hb hinv
      · rw [hT]
        norm_num
    · have hblt : gx * nx + gy * ny + gz * nz < 0 :=
        lt_of_le_of_ne (not_lt.mp hb) hdot
      have hnegX : ¬(0 < (px + gx * (1 / Rat.sqrt (gx * gx + gy * gy + gz * gz)) - px) * nx +
          (py + gy * (1 / Rat.sqrt (gx * gx + gy * gy + gz * gz)) - py) * ny +
          (pz + gz * (1 / Rat.sqrt (gx * gx + gy * gy + gz * gz)) - pz) * nz) := by
        rw [hE]
        exact not_lt.mpr (le_of_lt (mul_neg_of_neg_of_pos hblt hinv))
      have hdir : ((Hemispherical.mk att).scatterAt (vq gx gy gz)
          (Intersection.mk (vq px py pz) (vq nx ny nz))).1.direction =
          normalizeV (vq
            (-(px + gx * (1 / Rat.sqrt (gx * gx + gy * gy + gz * gz)) - px))
            (-(py + gy * (1 / Rat.sqrt (gx * gx + gy * gy + gz * gz)) - py))
            (-(pz + gz * (1 / Rat.sqrt (gx * gx + gy * gy + gz * gz)) - pz))) := by
        simp only [Hemispherical.scatterAt, randPointOnSphere, normV, dotV_vq,
          fsqrt_val hSnn, if_neg hifne, fdiv_val 1 hσne, vadd_vq, vscale_vq, vsub_vq,
          fgt_val, decide_eq_true_eq, hnegX, if_false, vneg_vq, RayM.new]
      rw [hdir]
      apply dot_normalize_pos
      · have hEneg : -(px + gx * (1 / Rat.sqrt (gx * gx + gy * gy + gz * gz)) - px) * nx +
            -(py + gy * (1 / Rat.sqrt (gx * gx + gy * gy + gz * gz)) - py) * ny +
            -(pz + gz * (1 / Rat.sqrt (gx * gx + gy * gy + gz * gz)) - pz) * nz =
            -((gx * nx + gy * ny + gz * nz) *
              (1 / Rat.sqrt (gx * gx + gy * gy + gz * gz))) := by
          ring
        rw [hEneg]
        exact neg_pos.mpr (mul_neg_of_neg_of_pos hblt hinv)
      · have hTneg : -(px + gx * (1 / Rat.sqrt (gx * gx + gy * gy + gz * gz)) - px) *
            -(px + gx * (1 / Rat.sqrt (gx * gx + gy * gy + gz * gz)) - px) +
            -(py + gy * (1 / Rat.sqrt (gx * gx + gy * gy + gz * gz)) - py) *
            -(py + gy * (1 / Rat.sqrt (gx * gx + gy * gy + gz * gz)) - py) +
            -(pz + gz * (1 / Rat.sqrt (gx * gx + gy * gy + gz * gz)) - pz) *
            -(pz + gz * (1 / Rat.sqrt (gx * gx + gy * gy + gz * gz)) - pz) =
            (gx * gx + gy * gy + gz * gz) *
            ((1 / Rat.sqrt (gx * gx + gy * gy + gz * gz)) *
             (1 / Rat.sqrt (gx * gx + gy * gy + gz * gz))) := by
          ring
        rw [hTneg, hS1]
        norm_num

/-- Closed instance for C5 (amended): a unit normal along `z` with the draw
`g = (0, 3, 4)` (norm 5, exactly representable), through both clauses. -/
theorem c5_diffuse_scatter_witness :
    fgt (dotV ((Lambertian.mk Pixel.black).scatterAt (vq 0 3 4)
        (Intersection.mk (vq 0 0 0) (vq 0 0 1))).1.direction
      (vq 0 0 1)) (F32.val 0) = true ∧
    fgt (dotV ((Hemispherical.mk Pixel.black).scatterAt (vq 0 3 4)
        (Intersection.mk (vq 0 0 0) (vq 0 0 1))).1.direction
      (vq 0 0 1)) (F32.val 0) = true := by
  have h25 : Rat.sqrt ((0 : ℚ) * 0 + 3 * 3 + 4 * 4) = 5 := by
    rw [show ((0 : ℚ) * 0 + 3 * 3 + 4 * 4) = 5 * 5 by norm_num]
    exact ratSqrt_sq (by norm_num)
  have h := c5_diffuse_scatter Pixel.black 0 0 0 0 0 1 0 3 4
    (by norm_num) (by rw [h25]; norm_num) (by norm_num)
  exact ⟨h.1 (by rw [h25]; norm_num), h.2 (by norm_num)⟩

/-! ## C6: metal scattering at zero fuzz -/

/-- When the reflection is `(±1, 0, 0)`, projecting `(1,0,0)` out of it
leaves the zero vector; normalizing it divides by zero and the resulting
NaNs survive every later multiplication, so the disk point is all-NaN even
at radius `0`. -/
theorem randPointOnDisk_degenerate (d0 d1 Rx : ℚ) (hRx2 : Rx * Rx = 1) :
    randPointOnDisk d0 d1 (vq Rx 0 0) (F32.val 0) =
      V3.mk F32.nan F32.nan F32.nan := by
  have e1 : Rx * 1 + 0 * 0 + 0 * 0 = Rx := by ring
  have hR2 : Rx * Rx + 0 * 0 + 0 * 0 = 1 := by linarith [hRx2]
  have hdiv1 : fdiv (F32.val Rx) (F32.val 1) = F32.val Rx := by
    rw [fdiv_val Rx one_ne_zero, div_one]
  have hz1 : (1 - Rx * Rx : ℚ) = 0 := by linarith [hRx2]
  have hz2 : (0 - 0 * Rx : ℚ) = 0 := by ring
  have hz3 : (0 * 0 + 0 * 0 + 0 * 0 : ℚ) = 0 := by ring
  have hs0 : fsqrt (F32.val 0) = F32.val 0 := by rw [fsqrt_val le_rfl, ratSqrt_zero]
  have hr0 : frecip (F32.val 0) = F32.pinf := by norm_num [frecip, fdiv]
  simp only [randPointOnDisk, projV, normalizeV, normV, vdivS, dotV_vq,
    vscale_vq, vsub_vq, e1, hR2, hdiv1, hz1, hz2, hz3, hs0, hr0]
  norm_num [vscale, vadd, crossV, vq, fmul, fadd, fsub, fneg]

/-- Symbolic evaluation of `Metal::scatter_at` at fuzziness `0` for a unit
incident direction and unit normal, in the non-degenerate case where the
reflection `R` is not parallel to `(1,0,0)`: the disk point vanishes
exactly, and the scattered ray is the (already unit-length) reflection iff
`R · n > 0`. -/
theorem metal_scatterAt_eval (att : Pixel)
    (ox oy oz px py pz nx ny nz dx dy dz d0 d1 Rx Ry Rz : ℚ)
    (hd : dx * dx + dy * dy + dz * dz = 1)
    (hn : nx * nx + ny * ny + nz * nz = 1)
    (hRx : Rx = dx - nx * (2 * (dx * nx + dy * ny + dz * nz)))
    (hRy : Ry = dy - ny * (2 * (dx * nx + dy * ny + dz * nz)))
    (hRz : Rz = dz - nz * (2 * (dx * nx + dy * ny + dz * nz)))
    (hbasis : ¬(Ry = 0 ∧ Rz = 0)) :
    Metal.scatterAt (Metal.mk att (F32.val 0)) d0 d1
        (RayM.mk (vq ox oy oz) (vq dx dy dz))
        (Intersection.mk (vq px py pz) (vq nx ny nz)) =
      if 0 < Rx * nx + Ry * ny + Rz * nz
      then [(RayM.mk (vq px py pz) (vq Rx Ry Rz), att)] else [] := by
  have hR2 : Rx * Rx + Ry * Ry + Rz * Rz = 1 := by
    rw [hRx, hRy, hRz]
    linear_combination hd + 4 * (dx * nx + dy * ny + dz * nz) ^ 2 * hn
  have hA1 : dx - nx * (2 * (dx * nx + dy * ny + dz * nz)) = Rx := hRx.symm
  have hA2 : dy - ny * (2 * (dx * nx + dy * ny + dz * nz)) = Ry := hRy.symm
  have hA3 : dz - nz * (2 * (dx * nx + dy * ny + dz * nz)) = Rz := hRz.symm
  have e1 : Rx * 1 + Ry * 0 + Rz * 0 = Rx := by ring
  have hdiv1 : fdiv (F32.val Rx) (F32.val 1) = F32.val Rx := by
    rw [fdiv_val Rx one_ne_zero, div_one]
  have hTwpos : 0 < Ry * Ry + Rz * Rz := by
    rcases not_and_or.mp hbasis with h | h
    · nlinarith [mul_self_pos.mpr h, mul_self_nonneg Rz]
    · nlinarith [mul_self_pos.mpr h, mul_self_nonneg Ry]
  have hTw : (1 - Rx * Rx) * (1 - Rx * Rx) + (0 - Ry * Rx) * (0 - Ry * Rx) +
      (0 - Rz * Rx) * (0 - Rz * Rx) = Ry * Ry + Rz * Rz := by
    linear_combination (Rx * Rx - 1) * hR2
  have hsq : fsqrt (F32.val (Ry * Ry + Rz * Rz)) =
      F32.val (Rat.sqrt (Ry * Ry + Rz * Rz)) := fsqrt_val (le_of_lt hTwpos)
  have hrec : frecip (F32.val (Rat.sqrt (Ry * Ry + Rz * Rz))) =
      F32.val (Rat.sqrt (Ry * Ry + Rz * Rz))⁻¹ :=
    frecip_val (ne_of_gt (ratSqrt_pos hTwpos))
  have hone : fsqrt (F32.val 1) = F32.val 1 := by
    rw [fsqrt_val zero_le_one, ratSqrt_one]
  have hrone : frecip (F32.val 1) = F32.val 1 := by
    rw [frecip_val one_ne_zero, inv_one]
  simp only [Metal.scatterAt, randPointOnDisk, projV, normalizeV, normV, vdivS,
    dotV_vq, fmul_val, vscale_vq, vsub_vq, vadd_vq, crossV_vq, hA1, hA2, hA3,
    e1, hR2, hdiv1, hTw, hsq, hrec]
  ring_nf
  split
  · next h =>
    have hpos : 0 < Rx * nx + Ry * ny + Rz * nz := by
      simp only [fgt_val, decide_eq_true_eq] at h
      linarith
    rw [if_pos hpos]
    simp only [RayM.new, normalizeV, normV, vdivS, dotV_vq, hR2, hone, hrone,
      vscale_vq, mul_one]
  · next h =>
    have hneg : ¬(0 < Rx * nx + Ry * ny + Rz * nz) := by
      intro hpos
      apply h
      simp only [fgt_val, decide_eq_true_eq]
      linarith
    rw [if_neg hneg]

/-- In the degenerate case (reflection parallel to `(1,0,0)`), the all-NaN
disk point poisons the scattered direction, and the comparison with the
normal is false: the ray is absorbed regardless of the reflection's
orientation. -/
theorem metal_scatterAt_degenerate (att : Pixel)
    (ox oy oz px py pz nx ny nz dx dy dz d0 d1 Rx Ry Rz : ℚ)
    (hd : dx * dx + dy * dy + dz * dz = 1)
    (hn : nx * nx + ny * ny + nz * nz = 1)
    (hRx : Rx = dx - nx * (2 * (dx * nx + dy * ny + dz * nz)))
    (hRy : Ry = dy - ny * (2 * (dx * nx + dy * ny + dz * nz)))
    (hRz : Rz = dz - nz * (2 * (dx * nx + dy * ny + dz * nz)))
    (hdeg : Ry = 0 ∧ Rz = 0) :
    Metal.scatterAt (Metal.mk att (F32.val 0)) d0 d1
        (RayM.mk (vq ox oy oz) (vq dx dy dz))
        (Intersection.mk (vq px py pz) (vq nx ny nz)) = [] := by
  have hR2 : Rx * Rx + Ry * Ry + Rz * Rz = 1 := by
    rw [hRx, hRy, hRz]
    linear_combination hd + 4 * (dx * nx + dy * ny + dz * nz) ^ 2 * hn
  have hRx2 : Rx * Rx = 1 := by
    rw [hdeg.1, hdeg.2] at hR2
    linarith
  have hA1 : dx - nx * (2 * (dx * nx + dy * ny + dz * nz)) = Rx := hRx.symm
  have hA2 : dy - ny * (2 * (dx * nx + dy * ny + dz * nz)) = Ry := hRy.symm
  have hA3 : dz - nz * (2 * (dx * nx + dy * ny + dz * nz)) = Rz := hRz.symm
  have hrpd := randPointOnDisk_degenerate d0 d1 Rx hRx2
  simp only [Metal.scatterAt, dotV_vq, fmul_val, vscale_vq, vsub_vq,
    hA1, hA2, hA3, hdeg.1, hdeg.2, hrpd]
  norm_num [vadd, vq, dotV, fadd, fmul, fneg, fgt, flt]

/-- C6 (amended): at fuzziness `0` with unit incident direction and unit
normal, `Metal::scatter_at` returns the single pair `(Ray::new(point, R),
attenuation)` with `R` the exact mirror reflection whenever `R` is not
parallel to the disk-basis seed `(1,0,0)` and `R · n > 0`; whenever
`R · n ≤ 0` it returns no pairs (in the parallel case it also returns no
pairs even when `R · n > 0` — see the counterexample). -/
theorem c6_metal_scatter (att : Pixel)
    (ox oy oz px py pz nx ny nz dx dy dz d0 d1 Rx Ry Rz : ℚ)
    (hd : dx * dx + dy * dy + dz * dz = 1)
    (hn : nx * nx + ny * ny + nz * nz = 1)
    (hRx : Rx = dx - nx * (2 * (dx * nx + dy * ny + dz * nz)))
    (hRy : Ry = dy - ny * (2 * (dx * nx + dy * ny + dz * nz)))
    (hRz : Rz = dz - nz * (2 * (dx * nx + dy * ny + dz * nz))) :
    (¬(Ry = 0 ∧ Rz = 0) → 0 < Rx * nx + Ry * ny + Rz * nz →
      Metal.scatterAt (Metal.mk att (F32.val 0)) d0 d1
          (RayM.mk (vq ox oy oz) (vq dx dy dz))
          (Intersection.mk (vq px py pz) (vq nx ny nz)) =
        [(RayM.mk (vq px py pz) (vq Rx Ry Rz), att)]) ∧
    (Rx * nx + Ry * ny + Rz * nz ≤ 0 →
      Metal.scatterAt (Metal.mk att (F32.val 0)) d0 d1
          (RayM.mk (vq ox oy oz) (vq dx dy dz))
          (Intersection.mk (vq px py pz) (vq nx ny nz)) = []) := by
  constructor
  · intro hbasis hRN
    rw [metal_scatterAt_eval att ox oy oz px py pz nx ny nz dx dy dz d0 d1
      Rx Ry Rz hd hn hRx hRy hRz hbasis, if_pos hRN]
  · intro hRN
    by_cases hb : Ry = 0 ∧ Rz = 0
    · exact metal_scatterAt_degenerate att ox oy oz px py pz nx ny nz dx dy dz
        d0 d1 Rx Ry Rz hd hn hRx hRy hRz hb
    · rw [metal_scatterAt_eval att ox oy oz px py pz nx ny nz dx dy dz d0 d1
        Rx Ry Rz hd hn hRx hRy hRz hb, if_neg (not_lt.mpr hRN)]

/-- Closed instance for C6 (amended): normal incidence straight down onto an
upward normal reflects to `(0,0,1)` exactly. -/
theorem c6_metal_scatter_witness :
    Metal.scatterAt (Metal.mk Pixel.black (F32.val 0)) 0 0
        (RayM.mk (vq 0 0 0) (vq 0 0 (-1)))
        (Intersection.mk (vq 0 0 0) (vq 0 0 1)) =
      [(RayM.mk (vq 0 0 0) (vq 0 0 1), Pixel.black)] :=
  (c6_metal_scatter Pixel.black 0 0 0 0 0 0 0 0 1 0 0 (-1) 0 0 0 0 1
    (by norm_num) (by norm_num) (by norm_num) (by norm_num) (by norm_num)).1
    (by norm_num) (by norm_num)

/-- Counterexample for C6 as stated: a valid reflection pointing exactly
along the `x` axis.  The disk-basis construction projects `(1,0,0)` out of
the reflection, normalizes the zero vector that results, and the NaNs this
produces survive multiplication by the zero fuzz radius, so the perturbed
direction is all-NaN and the ray is absorbed even though the reflection's
dot product with the normal is positive. -/
theorem c6_counterexample :
    Metal.scatterAt (Metal.mk Pixel.black (F32.val 0)) 0 0
      (RayM.mk (vq 0 0 0) (vq (-7 / 25) (-24 / 25) 0))
      (Intersection.mk (vq 0 0 0) (vq (4 / 5) (3 / 5) 0)) = [] ∧
    fgt (dotV (vsub (vq (-7 / 25) (-24 / 25) 0) (vscale (vq (4 / 5) (3 / 5) 0)
        (fmul (F32.val 2) (dotV (vq (-7 / 25) (-24 / 25) 0) (vq (4 / 5) (3 / 5) 0)))))
      (vq (4 / 5) (3 / 5) 0)) (F32.val 0) = true := by
  constructor
  · norm_num [Metal.scatterAt, randPointOnDisk, projV, normalizeV, normV, vdivS,
      frecip, fdiv, fsqrt, fgt, flt, vadd, vsub, vscale, vq, dotV, crossV, fmul,
      fadd, fsub, fneg]
  · norm_num [fgt, flt, vsub, vscale, vq, dotV, fmul, fadd, fsub, fneg]

/-! ## C7: dielectric refraction -/

theorem fpowi_val (q : ℚ) (n : ℕ) : fpowi (F32.val q) n = F32.val (q ^ n) := by
  induction n with
  | zero => simp [fpowi]
  | succ n ih => simp [fpowi, ih, pow_succ, mul_comm]

/-- C7: (1) `Dielectric::scatter_at` always returns exactly one pair;
(2) when the ray is exiting (clamped cosine against `-N` negative),
`refract` equals its own call with flipped normal and inverted ratio, and
that flipped call's clamped cosine is no longer negative (the flip happens
exactly once); (3) on lifted rational inputs in the non-exiting case, with
`c = min(D·(-N), 1)`, `s = √(1-c²)`, `r0 = (1-η)/(1+η)` and `O` the squared
norm of the Snell orthogonal component `η(D + cN)`, the result is the
specular reflection `D - 2(D·N)N` exactly when `η·s > 1` (total internal
reflection) or the uniform draw `p` falls under the Schlick reflectance
`r0² + (1-r0²)(1-c)⁵`, and otherwise the Snell refraction
`η(D + cN) - √|1-O|·N`. -/
theorem c7_dielectric :
    (∀ (m : Dielectric) (p : ℚ) (ray : RayM) (i : Intersection),
      (Dielectric.scatterAt m p ray i).length = 1) ∧
    (∀ (incident normal : V3) (ratio : F32) (p : ℚ),
      flt (fmin (dotV incident (vneg normal)) (F32.val 1)) (F32.val 0) = true →
      refract incident normal ratio p =
          refract incident (vneg normal) (frecip ratio) p ∧
        flt (fmin (dotV incident (vneg (vneg normal))) (F32.val 1)) (F32.val 0) = false) ∧
    (∀ dx dy dz nx ny nz r p c s r0 O : ℚ,
      c = min (dx * -nx + dy * -ny + dz * -nz) 1 →
      0 ≤ c →
      s = Rat.sqrt (1 - c * c) →
      1 + r ≠ 0 →
      r0 = (1 - r) / (1 + r) →
      O = (dx + nx * c) * r * ((dx + nx * c) * r) + (dy + ny * c) * r * ((dy + ny * c) * r) +
        (dz + nz * c) * r * ((dz + nz * c) * r) →
      refract (vq dx dy dz) (vq nx ny nz) (F32.val r) p =
        if 1 < r * s ∨ p < r0 * r0 + (1 - r0 * r0) * (1 - c) ^ 5
        then vq (dx - nx * (2 * (dx * nx + dy * ny + dz * nz)))
          (dy - ny * (2 * (dx * nx + dy * ny + dz * nz)))
          (dz - nz * (2 * (dx * nx + dy * ny + dz * nz)))
        else vq ((dx + nx * c) * r + nx * -Rat.sqrt |1 - O|)
          ((dy + ny * c) * r + ny * -Rat.sqrt |1 - O|)
          ((dz + nz * c) * r + nz * -Rat.sqrt |1 - O|)) := by
  refine ⟨fun m p ray i => rfl, fun incident normal ratio p hc => ⟨?_, ?_⟩, ?_⟩
  · conv_lhs => rw [refract]
    split
    · rfl
    · next heq =>
      rw [hc] at heq
      exact Bool.noConfusion heq
  · rw [dotV_vneg_right]
    exact fmin_flt_zero_flip _ hc
  · intro dx dy dz nx ny nz r p c s r0 O hcdef hcnn hs hr1 hr0 hO
    have hcfold : min (dx * -nx + dy * -ny + dz * -nz) 1 = c := hcdef.symm
    have hc1 : c ≤ 1 := by
      rw [hcdef]
      exact min_le_right _ _
    have hsquare : (0 : ℚ) ≤ 1 - c * c := by nlinarith [hcnn, hc1]
    have hsin : fsqrt (F32.val (1 - c * c)) = F32.val s := by
      rw [fsqrt_val hsquare, ← hs]
    have hr0fold : fdiv (F32.val (1 - r)) (F32.val (1 + r)) = F32.val r0 := by
      rw [fdiv_val _ hr1, ← hr0]
    have hOfold : (dx + nx * c) * r * ((dx + nx * c) * r) +
        (dy + ny * c) * r * ((dy + ny * c) * r) +
        (dz + nz * c) * r * ((dz + nz * c) * r) = O := hO.symm
    have habs : fabs (F32.val (1 - O)) = F32.val |1 - O| := rfl
    have hsqO : fsqrt (F32.val |1 - O|) = F32.val (Rat.sqrt |1 - O|) :=
      fsqrt_val (abs_nonneg _)
    have hfalse : flt (fmin (dotV (vq dx dy dz) (vneg (vq nx ny nz))) (F32.val 1))
        (F32.val 0) = false := by
      simp only [vneg_vq, dotV_vq, fmin_val, flt_val, hcfold]
      exact decide_eq_false (not_lt.mpr hcnn)
    conv_lhs => rw [refract]
    split
    · next heq =>
      rw [hfalse] at heq
      exact Bool.noConfusion heq
    · next heq =>
      simp only [vneg_vq, dotV_vq, fmin_val, hcfold, fmul_val, fsub_val, fadd_val,
        fneg_val, vadd_vq, vscale_vq, vsub_vq, hsin, hr0fold, fpowi_val, hOfold,
        habs, hsqO, fgt_val, Bool.or_eq_true, decide_eq_true_eq]

/-- Closed instance for C7: the source's own normal-incidence test shape —
straight-on incidence with ratio `2` and a draw above the reflectance `1/9`
refracts to the incident direction itself. -/
theorem c7_dielectric_witness :
    refract (vq 0 0 1) (vq 0 0 (-1)) (F32.val 2) (1 / 2) = vq 0 0 1 := by
  have h := c7_dielectric.2.2 0 0 1 0 0 (-1) 2 (1 / 2) 1 0 (-1 / 3) 0
    (by norm_num) (by norm_num) (by norm_num [ratSqrt_zero]) (by norm_num)
    (by norm_num) (by norm_num)
  rw [h]
  norm_num [ratSqrt_one]

end Raytrust
